import Mathlib

/-!
# Verification of the jax-autodiff computation-graph core

A shallow embedding of the graph IR, tracer, evaluators, reverse-mode
differentiation engine and the optimization passes of the repository
(src/core/tracer.py, src/core/autodiff.py, src/core/compiler.py,
src/optimizations/{constant_folding,cse,dead_code,fusion,patterns}.py).

Modelling conventions:
* A Python `Node` object graph is a finite DAG; we embed it as the tree
  obtained by unfolding, with every node carrying the `id` of the Python
  object (`uuid.uuid4()` in the source).  Object identity / sharing is
  `id` equality; the predicate `Coherent` states that equal ids denote
  equal nodes, which is what the process-unique uuids guarantee.
* Numeric values are rationals (`ℚ`): the source computes with Python
  floats / scalar tensors; the claims under study are exact arithmetic
  facts, and the tensor branches of the source are out of scope (the
  spec's scalar shape class).  Division is total on `ℚ`; division by
  zero is backend behaviour the spec leaves to the backend.
* Python exceptions are an explicit `Err` sum carried in `Except`.
* `Node.metadata` is modelled by its two read fields: `mshape`
  (presence-aware: `none` = key absent, `some s` = key present with
  value `s`, where `s : Option (List Nat)` since the copied value may
  itself be Python `None`) and `fusedOps`.  The `original_nodes`
  provenance entry and the `grad_fn` hook are never read by any code
  path the claims exercise (no custom operator carries a gradient
  function in the graphs under study) and are not modelled; the
  `grad_fn`-absent branch of `compute_gradients` is a no-op, which is
  what the embedding does for unrecognized operators.
* The vestigial `ref_count` / `buffer` memory-management fields of
  `tracer.Node` are written but never read by the algorithms under
  verification and are not modelled.
-/

/-- Python exceptions surfaced by the embedded code. -/
inductive Err where
  | unknownOp (op : String)   -- ValueError("Unknown operation: ...")
  | indexError                -- IndexError from inputs[0] / inputs[1]
  | unpackError               -- ValueError from `a, b = node.inputs`
  | typeError                 -- arithmetic on a None value
  | stopIteration             -- next() on an exhausted generator
deriving DecidableEq

/-- A node of the computation graph (`tracer.Node`), as the unfolding of
the Python object graph: `nid` is the node's `id`, `op` the operation
tag, `value` the optional cached literal, `mshape` / `fusedOps` the two
read entries of `metadata`, and `inputs` the ordered input list. -/
inductive Node where
  | mk (nid : Nat) (op : String) (value : Option ℚ)
       (mshape : Option (Option (List Nat))) (fusedOps : List String)
       (inputs : List Node)

def Node.nid : Node → Nat
  | .mk i _ _ _ _ _ => i

def Node.op : Node → String
  | .mk _ o _ _ _ _ => o

def Node.value : Node → Option ℚ
  | .mk _ _ v _ _ _ => v

def Node.mshape : Node → Option (Option (List Nat))
  | .mk _ _ _ s _ _ => s

def Node.fusedOps : Node → List String
  | .mk _ _ _ _ f _ => f

def Node.inputs : Node → List Node
  | .mk _ _ _ _ _ ins => ins

/-- `tracer.constant(value)`: a fresh node with op `"const"`, the given
value, no inputs and empty metadata; `i` stands for the fresh uuid. -/
def constant (i : Nat) (v : ℚ) : Node := .mk i "const" (some v) none [] []

/-- `tracer.add(a, b)` on arguments that are already nodes. -/
def addN (i : Nat) (a b : Node) : Node := .mk i "add" none none [] [a, b]

/-- `tracer.mul(a, b)` on arguments that are already nodes. -/
def mulN (i : Nat) (a b : Node) : Node := .mk i "mul" none none [] [a, b]

/-- `tracer.div(a, b)` on arguments that are already nodes. -/
def divN (i : Nat) (a b : Node) : Node := .mk i "div" none none [] [a, b]

mutual
/-- All nodes of the object graph reachable from `n`, `n` included
(with multiplicity: a shared node is listed once per path). -/
def subnodes : Node → List Node
  | .mk i o v s f ins => .mk i o v s f ins :: subnodesList ins
def subnodesList : List Node → List Node
  | [] => []
  | n :: ns => subnodes n ++ subnodesList ns
end

mutual
/-- Size of the unfolded graph, for ancestor/descendant arguments. -/
def nsize : Node → Nat
  | .mk _ _ _ _ _ ins => 1 + nsizeList ins
def nsizeList : List Node → Nat
  | [] => 0
  | n :: ns => nsize n + nsizeList ns
end

/-- Scalar dispatch of `tracer.evaluate` once the inputs are computed:
`inputs[0] + inputs[1]` etc.; a short input list raises IndexError, an
unrecognized tag raises `ValueError("Unknown operation: ...")`.  (The
tensor branch of the source performs the same arithmetic on tensors and
is outside this scalar model.) -/
def applyOp (op : String) (vs : List ℚ) : Except Err ℚ :=
  if op = "add" then
    match vs with
    | a :: b :: _ => .ok (a + b)
    | _ => .error .indexError
  else if op = "mul" then
    match vs with
    | a :: b :: _ => .ok (a * b)
    | _ => .error .indexError
  else if op = "div" then
    match vs with
    | a :: b :: _ => .ok (a / b)
    | _ => .error .indexError
  else .error (.unknownOp op)

mutual
/-- `tracer.evaluate`: return the cached `value` if present, otherwise
evaluate every input left to right and dispatch on the operation tag. -/
def evaluate : Node → Except Err ℚ
  | .mk _ _ (some v) _ _ _ => .ok v
  | .mk _ o none _ _ ins =>
    match evaluateList ins with
    | .error e => .error e
    | .ok vs => applyOp o vs
/-- `[evaluate(inp) for inp in node.inputs]`: left to right, first
exception propagates. -/
def evaluateList : List Node → Except Err (List ℚ)
  | [] => .ok []
  | n :: ns =>
    match evaluate n with
    | .error e => .error e
    | .ok v =>
      match evaluateList ns with
      | .error e => .error e
      | .ok vs => .ok (v :: vs)
end

mutual
/-- `autodiff.evaluate`: structural evaluator used by the gradient pass
for operand values.  A `"const"` node returns its stored value (a
missing value surfaces as the TypeError the caller's arithmetic would
raise); binary tags read `inputs[0]` and `inputs[1]`. -/
def evaluateA : Node → Except Err ℚ
  | .mk _ "const" v _ _ _ =>
    match v with
    | some q => .ok q
    | none => .error .typeError
  | .mk _ "add" _ _ _ (a :: b :: _) =>
    match evaluateA a with
    | .error e => .error e
    | .ok x =>
      match evaluateA b with
      | .error e => .error e
      | .ok y => .ok (x + y)
  | .mk _ "add" _ _ _ _ => .error .indexError
  | .mk _ "mul" _ _ _ (a :: b :: _) =>
    match evaluateA a with
    | .error e => .error e
    | .ok x =>
      match evaluateA b with
      | .error e => .error e
      | .ok y => .ok (x * y)
  | .mk _ "mul" _ _ _ _ => .error .indexError
  | .mk _ "div" _ _ _ (a :: b :: _) =>
    match evaluateA a with
    | .error e => .error e
    | .ok x =>
      match evaluateA b with
      | .error e => .error e
      | .ok y => .ok (x / y)
  | .mk _ "div" _ _ _ _ => .error .indexError
  | .mk _ o _ _ _ _ => .error (.unknownOp o)
end

/-- `x.value if x.value is not None else evaluate(x)`: the operand
value read by the `mul` / `div` gradient rules. -/
def valOf (n : Node) : Except Err ℚ :=
  match n.value with
  | some v => .ok v
  | none => evaluateA n

mutual
/-- `autodiff.topological_sort.visit`: mark the node's id, recurse into
the inputs left to right, then append the node (post-order DFS with an
id-keyed visited set).  State: (visited ids, order so far). -/
def topoVisit : Node → List Nat × List Node → List Nat × List Node
  | .mk i o v s f ins, (vis, ord) =>
    if i ∈ vis then (vis, ord)
    else
      let acc := topoList ins (i :: vis, ord)
      (acc.1, acc.2 ++ [.mk i o v s f ins])
def topoList : List Node → List Nat × List Node → List Nat × List Node
  | [], acc => acc
  | x :: xs, acc => topoList xs (topoVisit x acc)
end

/-- `autodiff.topological_sort`. -/
def topological_sort (g : Node) : List Node := (topoVisit g ([], [])).2

/-- Mutable per-node `grad` fields, as a map from node id to value. -/
def GradMap : Type := Nat → ℚ

/-- Write one node's `grad`. -/
def gset (γ : GradMap) (i : Nat) (x : ℚ) : GradMap :=
  fun j => if j = i then x else γ j

/-- One step of reverse propagation (`compute_gradients`' loop body)
for node `n` with current gradient state `γ`; scalar branches of the
source.  The `"const"` case and the unrecognized-operator case with no
registered `grad_fn` leave the state unchanged. -/
def backStep (γ : GradMap) (n : Node) : Except Err GradMap :=
  if n.op = "add" then
    -- for inp in n.inputs: inp.grad += n.grad
    .ok (n.inputs.foldl (fun γ' inp => gset γ' inp.nid (γ' inp.nid + γ' n.nid)) γ)
  else if n.op = "mul" then
    match n.inputs with
    | [a, b] =>
      match valOf a with
      | .error e => .error e
      | .ok av =>
        match valOf b with
        | .error e => .error e
        | .ok bv =>
          let γ₁ := gset γ a.nid (γ a.nid + γ n.nid * bv)
          .ok (gset γ₁ b.nid (γ₁ b.nid + γ₁ n.nid * av))
    | _ => .error .unpackError
  else if n.op = "div" then
    match n.inputs with
    | [a, b] =>
      match valOf a with
      | .error e => .error e
      | .ok av =>
        match valOf b with
        | .error e => .error e
        | .ok bv =>
          let γ₁ := gset γ a.nid (γ a.nid + γ n.nid / bv)
          .ok (gset γ₁ b.nid (γ₁ b.nid + γ₁ n.nid * (-av / (bv * bv))))
    | _ => .error .unpackError
  else .ok γ

/-- The reverse walk over the sorted nodes; an exception aborts the
walk, keeping the gradients written so far. -/
def backList : List Node → GradMap → GradMap × Option Err
  | [], γ => (γ, none)
  | n :: ns, γ =>
    match backStep γ n with
    | .ok γ' => backList ns γ'
    | .error e => (γ, some e)

/-- `autodiff.compute_gradients(node, seed_grad)`: topological sort,
reset every reachable gradient to zero, seed the root, then propagate
in reverse topological order.  Returns the final gradient state and
the exception, if one aborted the walk. -/
def compute_gradients (root : Node) (seed : ℚ) (γ : GradMap) :
    GradMap × Option Err :=
  let sorted := topological_sort root
  let γ0 := sorted.foldl (fun γ' n => gset γ' n.nid 0) γ
  let γ1 := gset γ0 root.nid seed
  backList sorted.reverse γ1

/-- `all(inp.op == "const" for inp in optimized_inputs)`. -/
def allConst (ns : List Node) : Bool := ns.all (fun u => u.op = "const")

/-- Collect the values of a list of constants; `none` stands for the
TypeError that Python's arithmetic on a `None` value raises (caught by
the folding pass). -/
def seqOpt : List (Option ℚ) → Option (List ℚ)
  | [] => some []
  | o :: os =>
    match o with
    | none => none
    | some v =>
      match seqOpt os with
      | none => none
      | some vs => some (v :: vs)

mutual
/-- `constant_folding.optimize.helper`: leave constants alone, fold the
inputs first and write them back, then, if every folded input is a
constant, replace an `"add"` node by a constant holding `sum(values)`
and a `"mul"` node by a constant holding the left fold of `*` over the
values; any other operator (and a folding failure: a missing value, or
`values[0]` on an empty list, both caught by the `except` clause) keeps
the node unfolded.  New constants receive fresh ids from the counter
`c`. -/
def cfoldVisit : Node → Nat → Node × Nat
  | .mk i o v s f ins, c =>
    if o = "const" then (.mk i o v s f ins, c)
    else
      match cfoldList ins c with
      | (us, c1) =>
        if allConst us then
          if o = "add" then
            match seqOpt (us.map Node.value) with
            | some vs => (constant c1 (vs.foldl (· + ·) 0), c1 + 1)
            | none => (.mk i o v s f us, c1)
          else if o = "mul" then
            match seqOpt (us.map Node.value) with
            | some (v0 :: vrest) => (constant c1 (vrest.foldl (· * ·) v0), c1 + 1)
            | _ => (.mk i o v s f us, c1)
          else (.mk i o v s f us, c1)
        else (.mk i o v s f us, c1)
def cfoldList : List Node → Nat → List Node × Nat
  | [], c => ([], c)
  | n :: ns, c =>
    match cfoldVisit n c with
    | (u, c1) =>
      match cfoldList ns c1 with
      | (us, c2) => (u :: us, c2)
end

/-- `constant_folding.optimize`. -/
def ConstantFolding.optimize (g : Node) (c : Nat) : Node × Nat := cfoldVisit g c

/-- The key of `cse.optimize`'s `subexpr_map`:
`(node.op, tuple(inp.id for inp in new_inputs), node.value)`. -/
abbrev CseKey : Type := String × List Nat × Option ℚ

/-- `subexpr_map[key]` lookup in the association-list model of the
Python dict (keys are unique, so first match is the dict entry). -/
def lookupKey (k : CseKey) : List (CseKey × Node) → Option Node
  | [] => none
  | (k', n) :: m => if k = k' then some n else lookupKey k m

mutual
/-- `cse.optimize.helper`: input-less nodes are returned untouched;
otherwise the inputs are processed first, the node is keyed by
`(op, input ids, value)`, and a node whose key was already seen is
replaced by the first node recorded under that key. -/
def cseVisit : Node → List (CseKey × Node) → Node × List (CseKey × Node)
  | .mk i o v s f ins, m =>
    if ins.isEmpty then (.mk i o v s f ins, m)
    else
      match cseList ins m with
      | (us, m1) =>
        let k : CseKey := (o, us.map Node.nid, v)
        match lookupKey k m1 with
        | some n' => (n', m1)
        | none => (.mk i o v s f us, (k, .mk i o v s f us) :: m1)
def cseList : List Node → List (CseKey × Node) → List Node × List (CseKey × Node)
  | [], m => ([], m)
  | n :: ns, m =>
    match cseVisit n m with
    | (u, m1) =>
      match cseList ns m1 with
      | (us, m2) => (u :: us, m2)
end

/-- `cse.optimize`. -/
def Cse.optimize (g : Node) : Node := (cseVisit g []).1

mutual
/-- `dead_code.optimize.mark`: depth-first reachability marking with an
id-keyed visited set. -/
def dceMark : Node → List Nat → List Nat
  | .mk i _ _ _ _ ins, reach =>
    if i ∈ reach then reach else dceMarkList ins (i :: reach)
def dceMarkList : List Node → List Nat → List Nat
  | [], reach => reach
  | n :: ns, reach => dceMarkList ns (dceMark n reach)
end

/-- `dead_code.optimize`: mark the reachable nodes and return the graph
unchanged in structure. -/
def DeadCode.optimize (g : Node) : Node :=
  let _reachable := dceMark g []
  g

/-- `fusion.METAL_FUSION_PATTERNS`. -/
def metalFusionPatterns (p : String × String) : Option String :=
  if p = ("mul", "add") then some "fma"
  else if p = ("mul", "mul") then some "mul2"
  else if p = ("add", "add") then some "add2"
  else if p = ("mul", "div") then some "scale"
  else none

/-- `fusion.can_fuse`: the pair of tags must be a known pattern, `op2`
must have exactly two inputs one of which is `op1` (Python object
identity, i.e. id equality), and declared shapes, when both present in
the metadata, must agree. -/
def can_fuse (op1 op2 : Node) : Bool :=
  if (metalFusionPatterns (op1.op, op2.op)).isNone then false
  else if op2.inputs.length ≠ 2 ∨ ¬ op2.inputs.any (fun i => i.nid = op1.nid) then false
  else
    match op1.mshape, op2.mshape with
    | some s1, some s2 => s1 = s2
    | _, _ => true

/-- The backward walk of `fusion.find_fusion_candidates`: starting from
`group = [node]`, repeatedly take `prev = current.inputs[0]` while the
current node has exactly two inputs and `can_fuse(prev, current)`,
inserting `prev` at the front. -/
def fusionWalk : Node → List Node → List Node
  | .mk i o v s f (a :: b :: []), grp =>
    if can_fuse a (.mk i o v s f (a :: b :: [])) then fusionWalk a (a :: grp)
    else grp
  | _, grp => grp

mutual
/-- `fusion.find_fusion_candidates.visit`: DFS with an id-keyed visited
set; after visiting the inputs, build a fusion group by walking
backward from the node and record it when it has more than one
member.  State: (visited ids, candidate groups). -/
def fusionFind : Node → List Nat × List (List Node) → List Nat × List (List Node)
  | .mk i o v s f ins, (vis, cands) =>
    if i ∈ vis then (vis, cands)
    else
      match fusionFindList ins (i :: vis, cands) with
      | (vis1, cands1) =>
        if !ins.isEmpty then
          let group := fusionWalk (.mk i o v s f ins) [.mk i o v s f ins]
          if group.length > 1 then (vis1, cands1 ++ [group]) else (vis1, cands1)
        else (vis1, cands1)
def fusionFindList : List Node → List Nat × List (List Node) → List Nat × List (List Node)
  | [], acc => acc
  | x :: xs, acc => fusionFindList xs (fusionFind x acc)
end

/-- `fusion.find_fusion_candidates`. -/
def find_fusion_candidates (g : Node) : List (List Node) :=
  (fusionFind g ([], [])).2

/-- `fusion.create_fused_op`: for a group of at least two operations
whose two leading tags form a known pattern, build one fresh node with
the fused tag, inputs `ops[0].inputs` followed by every input of the
later operations other than `ops[0]` itself (object identity = id
equality), and metadata recording the fused tags and `ops[0]`'s
declared shape (the `shape` key is written even when that value is
Python `None`).  A single-element group or an unknown pattern returns
`ops[0]`; the empty-group `ops[0]` IndexError is unreachable (groups
always have at least two members) and is modelled by a junk node. -/
def create_fused_op (ops : List Node) (c : Nat) : Node × Nat :=
  match ops with
  | [] => (.mk 0 "" none none [] [], c)
  | [o] => (o, c)
  | o1 :: o2 :: rest =>
    match metalFusionPatterns (o1.op, o2.op) with
    | none => (o1, c)
    | some fusedType =>
      let fusedIns :=
        o1.inputs ++ (o2 :: rest).flatMap
          (fun op => op.inputs.filter (fun inp => inp.nid ≠ o1.nid))
      let shapeVal : Option (List Nat) :=
        match o1.mshape with
        | some sv => sv
        | none => none
      (.mk c fusedType none (some shapeVal) ((o1 :: o2 :: rest).map Node.op) fusedIns,
        c + 1)

/-- `replacements.get(node.id, node)` lookup. -/
def lookupNat (i : Nat) : List (Nat × Node) → Option Node
  | [] => none
  | (j, n) :: m => if i = j then some n else lookupNat i m

mutual
/-- `fusion.optimize.replace_node`: a node whose id was already visited
resolves through the replacement map; otherwise the node is marked,
replaced if its id is mapped, and its inputs are rewritten recursively
(the comprehension threads the mutated visited set).  When the
rewritten inputs differ (Python list `!=` is element-wise object
identity, i.e. the id lists differ; rewrites always change ids), a
fresh node with the same tag and copied metadata — and no cached value
— is built.  State: (visited ids, fresh-id counter). -/
def replaceNode (repl : List (Nat × Node)) :
    Node → List Nat × Nat → Node × (List Nat × Nat)
  | .mk i o v s f ins, (vis, c) =>
    if i ∈ vis then
      match lookupNat i repl with
      | some r => (r, (vis, c))
      | none => (.mk i o v s f ins, (vis, c))
    else
      let vis1 := i :: vis
      match lookupNat i repl with
      | some r => (r, (vis1, c))
      | none =>
        match replaceList repl ins (vis1, c) with
        | (us, (vis2, c2)) =>
          if us.map Node.nid ≠ ins.map Node.nid then
            (.mk c2 o none s f us, (vis2, c2 + 1))
          else (.mk i o v s f ins, (vis2, c2))
def replaceList (repl : List (Nat × Node)) :
    List Node → List Nat × Nat → List Node × (List Nat × Nat)
  | [], acc => ([], acc)
  | n :: ns, acc =>
    match replaceNode repl n acc with
    | (u, acc1) =>
      match replaceList repl ns acc1 with
      | (us, acc2) => (u :: us, acc2)
end

/-- `fusion.optimize`: find the fusion groups; if there are none return
the graph, otherwise map every member of every group to its fused
replacement and rewrite the graph from the root. -/
def Fusion.optimize (g : Node) (c : Nat) : Node × Nat :=
  let groups := find_fusion_candidates g
  if groups.isEmpty then (g, c)
  else
    let repl := groups.foldl
      (fun (acc : List (Nat × Node) × Nat) grp =>
        match create_fused_op grp acc.2 with
        | (fused, c') => (acc.1 ++ grp.map (fun old => (old.nid, fused)), c'))
      ([], c)
    match replaceNode repl.1 g ([], repl.2) with
    | (g', (_, c'')) => (g', c'')

/-- Match function of the `x * 0 = 0` pattern:
`n.op == 'mul' and any(i.value == 0 for i in n.inputs if i.value is not None)`. -/
def patMatchZero (n : Node) : Bool :=
  n.op = "mul" && n.inputs.any (fun i =>
    match i.value with
    | some v => v = 0
    | none => false)

/-- Replace function of `x * 0 = 0`: a fresh `constant(0)`. -/
def patReplaceZero (_n : Node) (c : Nat) : Except Err (Node × Nat) :=
  .ok (constant c 0, c + 1)

/-- Match function of the `x * 1 = x` pattern. -/
def patMatchOne (n : Node) : Bool :=
  n.op = "mul" && n.inputs.any (fun i =>
    match i.value with
    | some v => v = 1
    | none => false)

/-- Replace function of `x * 1 = x`:
`next(i for i in n.inputs if i.value != 1)`; an exhausted generator
raises StopIteration.  (Python `None != 1` is true, so a valueless
input qualifies.) -/
def patReplaceOne (n : Node) (c : Nat) : Except Err (Node × Nat) :=
  match n.inputs.find? (fun i => i.value ≠ some 1) with
  | some x => .ok (x, c)
  | none => .error .stopIteration

/-- `patterns.patterns`: the ordered pattern table. -/
def patterns : List ((Node → Bool) × (Node → Nat → Except Err (Node × Nat))) :=
  [(patMatchZero, patReplaceZero), (patMatchOne, patReplaceOne)]

/-- `for pattern in patterns: if pattern.match(node): return
pattern.replace(node)` — first match wins, otherwise the node itself. -/
def firstPattern :
    List ((Node → Bool) × (Node → Nat → Except Err (Node × Nat))) →
    Node → Nat → Except Err (Node × Nat)
  | [], n, c => .ok (n, c)
  | (m, r) :: ps, n, c => if m n then r n c else firstPattern ps n c

mutual
/-- `compiler.apply_patterns.helper`: rewrite the inputs bottom-up,
write them back into the node, then try the patterns in order. -/
def patVisit : Node → Nat → Except Err (Node × Nat)
  | .mk i o v s f ins, c =>
    match patList ins c with
    | .error e => .error e
    | .ok (us, c1) => firstPattern patterns (.mk i o v s f us) c1
def patList : List Node → Nat → Except Err (List Node × Nat)
  | [], c => .ok ([], c)
  | n :: ns, c =>
    match patVisit n c with
    | .error e => .error e
    | .ok (u, c1) =>
      match patList ns c1 with
      | .error e => .error e
      | .ok (us, c2) => .ok (u :: us, c2)
end

/-- `compiler.apply_patterns`. -/
def apply_patterns (g : Node) (c : Nat) : Except Err (Node × Nat) := patVisit g c

/-- `Compiler.compile`: constant folding, then CSE, then dead-code
elimination, then fusion, then the pattern pass, each feeding the
next; the fresh-id counter is threaded through the node-creating
passes. -/
def Compiler.compile (g : Node) (c : Nat) : Except Err (Node × Nat) :=
  match ConstantFolding.optimize g c with
  | (g1, c1) =>
    let g2 := Cse.optimize g1
    let g3 := DeadCode.optimize g2
    match Fusion.optimize g3 c1 with
    | (g4, c4) => apply_patterns g4 c4

/-- Local well-formedness of one node, as the tracer constructs them:
constants carry a value and no inputs, the binary arithmetic tags carry
exactly two inputs, and only constants cache a value (nothing else in
the source writes `node.value`). -/
def localWF (n : Node) : Prop :=
  (n.op = "const" → n.inputs.isEmpty = true ∧ n.value.isSome = true) ∧
  ((n.op = "add" ∨ n.op = "mul" ∨ n.op = "div") → n.inputs.length = 2) ∧
  (n.op ≠ "const" → n.value = none)

instance (n : Node) : Decidable (localWF n) := by
  unfold localWF
  infer_instance

/-- Every node of the graph is locally well-formed. -/
def WFg (n : Node) : Prop := ∀ s ∈ subnodes n, localWF s

instance (n : Node) : Decidable (WFg n) := by
  unfold WFg
  infer_instance

/-- Every node of the graph either caches a value or carries one of the
tags the evaluator recognizes. -/
def AllKnown (n : Node) : Prop :=
  ∀ s ∈ subnodes n, s.value.isSome = true ∨
    (s.op = "add" ∨ s.op = "mul" ∨ s.op = "div")

instance (n : Node) : Decidable (AllKnown n) := by
  unfold AllKnown
  infer_instance

/-- Id coherence: equal ids denote equal nodes, which is what the
process-unique `uuid.uuid4()` ids of the source guarantee. -/
def Coherent (g : Node) : Prop :=
  ∀ s ∈ subnodes g, ∀ t ∈ subnodes g, s.nid = t.nid → s = t

/-- A graph built purely from `constant` nodes combined by the `add`
and `mul` constructors. -/
def PureAddMul (n : Node) : Prop :=
  ∀ s ∈ subnodes n,
    (s.op = "const" ∧ s.inputs.isEmpty = true ∧ s.value.isSome = true) ∨
    ((s.op = "add" ∨ s.op = "mul") ∧ s.inputs.length = 2 ∧ s.value = none)

instance (n : Node) : Decidable (PureAddMul n) := by
  unfold PureAddMul
  infer_instance

/-- The list places every element after all of its inputs. -/
def TopoSorted (l : List Node) : Prop :=
  ∀ j, ∀ hj : j < l.length, ∀ inp ∈ (l.get ⟨j, hj⟩).inputs,
    ∃ k, ∃ hk : k < l.length, k < j ∧ l.get ⟨k, hk⟩ = inp

/-- Concrete graph `add(mul(constant(2), constant(3)), constant(4))`. -/
def gFuse : Node := addN 4 (mulN 2 (constant 0 2) (constant 1 3)) (constant 3 4)

/-- The `mul` subterm of `gFuse`. -/
def mulXc : Node := mulN 2 (constant 0 2) (constant 1 3)

/-- The fused node the fusion pass builds for `gFuse` with fresh id
100: tag `"fma"`, the three leaf operands, provenance metadata. -/
def fusedFma : Node :=
  .mk 100 "fma" none (some none) ["mul", "add"]
    [constant 0 2, constant 1 3, constant 3 4]

/-- Concrete graph `div(constant(1), constant(2))`. -/
def gDiv : Node := divN 2 (constant 0 1) (constant 1 2)

/-- Concrete graph `mul(add(constant(2), constant(3)), constant(4))`. -/
def gPure : Node := mulN 4 (addN 2 (constant 0 2) (constant 1 3)) (constant 3 4)

/-- The example graph of `examples/complex_autodiff.py`:
`x = constant(2.0)` shared by every product. -/
def xNode : Node := constant 0 2

/-- `x_squared_2 = mul(x, x)`. -/
def xSq : Node := mulN 1 xNode xNode

/-- The inner `mul(x, x)` of `x_cubed` (a distinct node). -/
def xSqInner : Node := mulN 2 xNode xNode

/-- `x_cubed = mul(x, mul(x, x))`. -/
def xCube : Node := mulN 3 xNode xSqInner

/-- `one_over_x_cubed = div(constant(1.0), x_cubed)`. -/
def oocNode : Node := divN 5 (constant 4 1) xCube

/-- `mul(constant(-1.0), one_over_x_cubed)`. -/
def negNode : Node := mulN 7 (constant 6 (-1)) oocNode

/-- `g = add(x_squared_2, mul(constant(-1.0), one_over_x_cubed))`,
i.e. `g(x) = x*x - 1/(x*x*x)` at `x = 2`. -/
def gGrad : Node := addN 8 xSq negNode

/-- Two structurally identical but unshared subexpressions
`add(constant(2), constant(3))` combined by `add`. -/
def gTwin : Node :=
  addN 6 (addN 4 (constant 0 2) (constant 1 3))
         (addN 5 (constant 2 2) (constant 3 3))

/-- `mul(constant(0), constant(1))`. -/
def gMulZeroOne : Node := .mk 2 "mul" none none [] [constant 0 0, constant 1 1]

/-- `mul(constant(1), constant(1))`: every input carries the literal 1. -/
def gMulOneOne : Node := .mk 2 "mul" none none [] [constant 0 1, constant 1 1]

/-- An `add` node one of whose operands is an unrecognized operator. -/
def gAddRelu : Node := .mk 2 "add" none none [] [.mk 0 "relu" none none [] [], constant 1 1]

/-- A pattern-free non-constant node, `div(constant(5), constant(7))`. -/
def xwNode : Node := divN 2 (constant 0 5) (constant 1 7)

/-! ## Proof apparatus: induction payloads and invariants -/

/-- Induction payload for the folding pass: evaluation is preserved and
a constant result always carries a value. -/
def CfoldSpec (n : Node) : Prop :=
  ∀ c, evaluate (cfoldVisit n c).1 = evaluate n ∧
    ((cfoldVisit n c).1.op = "const" → (cfoldVisit n c).1.value.isSome = true)

/-- The first node of `g`'s object graph carrying the id `i`. -/
def findSub (g : Node) (i : Nat) : Option Node :=
  (subnodes g).find? (fun s => s.nid = i)

/-- Evaluation as a function of the id, defined on the ids of `g`. -/
def sigmaEval (g : Node) (i : Nat) : Except Err ℚ :=
  match findSub g i with
  | some s => evaluate s
  | none => .error .typeError

/-- Sequence a list of evaluation results, first error first. -/
def seqExc : List (Except Err ℚ) → Except Err (List ℚ)
  | [] => .ok []
  | e :: es =>
    match e with
    | .error er => .error er
    | .ok v =>
      match seqExc es with
      | .error er => .error er
      | .ok vs => .ok (v :: vs)

/-- The evaluation a CSE key determines: the cached value if the key
carries one, otherwise the operator applied to the evaluations that the
input ids determine in `g`. -/
def keySem (g : Node) (k : CseKey) : Except Err ℚ :=
  match k.2.2 with
  | some v => .ok v
  | none =>
    match seqExc (k.2.1.map (sigmaEval g)) with
    | .error e => .error e
    | .ok vs => applyOp k.1 vs

/-- Invariant of the `subexpr_map`: every recorded node evaluates to
what its key determines, and to what its own id determines in `g`. -/
def CseInv (g : Node) (m : List (CseKey × Node)) : Prop :=
  ∀ k n', lookupKey k m = some n' →
    evaluate n' = keySem g k ∧ evaluate n' = sigmaEval g n'.nid

/-- What `cse.optimize.helper` returns for `t`: a node with the same
evaluation, itself evaluating to what its id determines in `g`. -/
def CseRet (g t u : Node) : Prop :=
  evaluate u = evaluate t ∧ evaluate u = sigmaEval g u.nid

/-- Conclusions of one `visit` call: the order grows by a suffix, the
visited set grows, the node's id gets visited, every ordered node's id
and its inputs' ids are visited, and every newly visited id belongs to
an ordered node. -/
def TopoStmt (n : Node) : Prop :=
  ∀ vis ord,
    (∀ x ∈ ord, ∀ y ∈ x.inputs, y.nid ∈ vis) →
    (∀ x ∈ ord, x.nid ∈ vis) →
    (∃ d, (topoVisit n (vis, ord)).2 = ord ++ d) ∧
    (∀ i ∈ vis, i ∈ (topoVisit n (vis, ord)).1) ∧
    n.nid ∈ (topoVisit n (vis, ord)).1 ∧
    (∀ x ∈ (topoVisit n (vis, ord)).2, ∀ y ∈ x.inputs,
      y.nid ∈ (topoVisit n (vis, ord)).1) ∧
    (∀ x ∈ (topoVisit n (vis, ord)).2, x.nid ∈ (topoVisit n (vis, ord)).1) ∧
    (∀ i ∈ (topoVisit n (vis, ord)).1,
      i ∈ vis ∨ i ∈ (topoVisit n (vis, ord)).2.map Node.nid)

/-- The list version of `TopoStmt` for the fold over the inputs. -/
def TopoStmtL (ns : List Node) : Prop :=
  ∀ vis ord,
    (∀ x ∈ ord, ∀ y ∈ x.inputs, y.nid ∈ vis) →
    (∀ x ∈ ord, x.nid ∈ vis) →
    (∃ d, (topoList ns (vis, ord)).2 = ord ++ d) ∧
    (∀ i ∈ vis, i ∈ (topoList ns (vis, ord)).1) ∧
    (∀ y ∈ ns, y.nid ∈ (topoList ns (vis, ord)).1) ∧
    (∀ x ∈ (topoList ns (vis, ord)).2, ∀ y ∈ x.inputs,
      y.nid ∈ (topoList ns (vis, ord)).1) ∧
    (∀ x ∈ (topoList ns (vis, ord)).2, x.nid ∈ (topoList ns (vis, ord)).1) ∧
    (∀ i ∈ (topoList ns (vis, ord)).1,
      i ∈ vis ∨ i ∈ (topoList ns (vis, ord)).2.map Node.nid)

/-- Conclusions of one `visit` call under id coherence, relative to the
ambient graph `g`: the order grows by new nodes from the visited
subtree, stays duplicate-free and topologically sorted, and ends up
containing every node reachable from the argument. -/
def TopoCoh (g n : Node) : Prop :=
  ∀ vis ord,
    (∀ x ∈ ord, x ∈ subnodes g) →
    ((ord.map Node.nid).Nodup) →
    (∀ x ∈ ord, x.nid ∈ vis) →
    TopoSorted ord →
    (∀ i ∈ vis, i ∉ ord.map Node.nid → ∀ s ∈ subnodes n, s.nid ≠ i) →
    n ∈ subnodes g →
    (∃ d, (topoVisit n (vis, ord)).2 = ord ++ d ∧
      (∀ x ∈ d, x ∈ subnodes n) ∧ (∀ x ∈ d, x.nid ∉ vis)) ∧
    (∀ x ∈ (topoVisit n (vis, ord)).2, x ∈ subnodes g) ∧
    (((topoVisit n (vis, ord)).2.map Node.nid).Nodup) ∧
    (∀ x ∈ (topoVisit n (vis, ord)).2, x.nid ∈ (topoVisit n (vis, ord)).1) ∧
    TopoSorted (topoVisit n (vis, ord)).2 ∧
    (∀ i ∈ vis, i ∈ (topoVisit n (vis, ord)).1) ∧
    (∀ i ∈ (topoVisit n (vis, ord)).1,
      i ∈ vis ∨ i ∈ (topoVisit n (vis, ord)).2.map Node.nid) ∧
    (∀ s ∈ subnodes n, s ∈ (topoVisit n (vis, ord)).2)

/-- The list version of `TopoCoh` for the fold over the inputs. -/
def TopoCohL (g : Node) (ns : List Node) : Prop :=
  ∀ vis ord,
    (∀ x ∈ ord, x ∈ subnodes g) →
    ((ord.map Node.nid).Nodup) →
    (∀ x ∈ ord, x.nid ∈ vis) →
    TopoSorted ord →
    (∀ i ∈ vis, i ∉ ord.map Node.nid → ∀ y ∈ ns, ∀ s ∈ subnodes y, s.nid ≠ i) →
    (∀ y ∈ ns, y ∈ subnodes g) →
    (∃ d, (topoList ns (vis, ord)).2 = ord ++ d ∧
      (∀ x ∈ d, ∃ y ∈ ns, x ∈ subnodes y) ∧ (∀ x ∈ d, x.nid ∉ vis)) ∧
    (∀ x ∈ (topoList ns (vis, ord)).2, x ∈ subnodes g) ∧
    (((topoList ns (vis, ord)).2.map Node.nid).Nodup) ∧
    (∀ x ∈ (topoList ns (vis, ord)).2, x.nid ∈ (topoList ns (vis, ord)).1) ∧
    TopoSorted (topoList ns (vis, ord)).2 ∧
    (∀ i ∈ vis, i ∈ (topoList ns (vis, ord)).1) ∧
    (∀ i ∈ (topoList ns (vis, ord)).1,
      i ∈ vis ∨ i ∈ (topoList ns (vis, ord)).2.map Node.nid) ∧
    (∀ y ∈ ns, ∀ s ∈ subnodes y, s ∈ (topoList ns (vis, ord)).2)

/-- Agreement of two gradient states on a set of ids. -/
def AgreeOn (I : List Nat) (γ γ' : GradMap) : Prop := ∀ j ∈ I, γ j = γ' j

/-- The key `cse.optimize.helper` computes for a node in state `m`:
`(node.op, tuple(inp.id for inp in new_inputs), node.value)`, the
inputs recursively processed first. -/
def cseKeyOf (n : Node) (m : List (CseKey × Node)) : CseKey :=
  (n.op, (cseList n.inputs m).1.map Node.nid, n.value)

/-- Every node the `subexpr_map` records realizes its own key: its
operator, input identities and cached value are the key's components.
Holds of the empty map and is preserved by the pass. -/
def KeyFaithful (m : List (CseKey × Node)) : Prop :=
  ∀ k r, lookupKey k m = some r →
    r.op = k.1 ∧ r.inputs.map Node.nid = k.2.1 ∧ r.value = k.2.2

/-! ## Structural lemmas -/

theorem Node.strongInd (P : Node → Prop)
    (h : ∀ i o v s f ins, (∀ x ∈ ins, P x) → P (.mk i o v s f ins)) :
    ∀ n, P n :=
  fun n =>
    @Node.rec P (fun l => ∀ x ∈ l, P x)
      (fun i o v s f ins ih => h i o v s f ins ih)
      (fun x hx => absurd hx (List.not_mem_nil x))
      (fun a as iha ihas x hx => by
        rcases List.mem_cons.1 hx with h1 | h2
        · exact h1 ▸ iha
        · exact ihas x h2)
      n

theorem self_mem_subnodes (n : Node) : n ∈ subnodes n := by
  cases n with
  | mk i o v s f ins => simp [subnodes]

theorem mem_subnodesList_iff (ns : List Node) (s : Node) :
    s ∈ subnodesList ns ↔ ∃ x ∈ ns, s ∈ subnodes x := by
  induction ns with
  | nil => simp [subnodesList]
  | cons a as ih => simp [subnodesList, ih]

theorem input_mem_subnodes {x n : Node} (hx : x ∈ n.inputs) : x ∈ subnodes n := by
  cases n with
  | mk i o v s f ins =>
    simp only [subnodes, List.mem_cons]
    exact Or.inr ((mem_subnodesList_iff ins x).2 ⟨x, hx, self_mem_subnodes x⟩)

theorem subnodes_trans {s t g : Node}
    (hst : s ∈ subnodes t) (htg : t ∈ subnodes g) : s ∈ subnodes g := by
  induction g using Node.strongInd with
  | h i o v sh f ins ih =>
    simp only [subnodes, List.mem_cons, mem_subnodesList_iff] at htg ⊢
    rcases htg with rfl | ⟨x, hx, htx⟩
    · simp only [subnodes, List.mem_cons, mem_subnodesList_iff] at hst
      exact hst
    · exact Or.inr ⟨x, hx, ih x hx htx⟩

theorem nsize_pos (n : Node) : 0 < nsize n := by
  cases n with
  | mk i o v s f ins => simp [nsize]

theorem nsize_le_of_mem {x : Node} {ns : List Node} (hx : x ∈ ns) :
    nsize x ≤ nsizeList ns := by
  induction ns with
  | nil => cases hx
  | cons a as ih =>
    rcases List.mem_cons.1 hx with rfl | h
    · simp [nsizeList]
    · calc nsize x ≤ nsizeList as := ih h
        _ ≤ nsize a + nsizeList as := Nat.le_add_left _ _
        _ = nsizeList (a :: as) := by simp [nsizeList]

theorem nsize_of_mem_subnodes {s n : Node} (hs : s ∈ subnodes n) :
    nsize s ≤ nsize n := by
  induction n using Node.strongInd with
  | h i o v sh f ins ih =>
    simp only [subnodes, List.mem_cons, mem_subnodesList_iff] at hs
    rcases hs with rfl | ⟨x, hx, hsx⟩
    · exact Nat.le_refl _
    · calc nsize s ≤ nsize x := ih x hx hsx
        _ ≤ nsizeList ins := nsize_le_of_mem hx
        _ ≤ 1 + nsizeList ins := Nat.le_add_left _ _
        _ = nsize (Node.mk i o v sh f ins) := by simp [nsize]

theorem nsize_input_lt {x n : Node} (hx : x ∈ n.inputs) : nsize x < nsize n := by
  cases n with
  | mk i o v s f ins =>
    simp only [Node.inputs] at hx
    calc nsize x ≤ nsizeList ins := nsize_le_of_mem hx
      _ < 1 + nsizeList ins := by omega
      _ = nsize (Node.mk i o v s f ins) := by simp [nsize]

theorem not_subnode_of_input {n x s : Node} (hx : x ∈ n.inputs)
    (hs : s ∈ subnodes x) : s ≠ n := by
  intro he
  have h1 : nsize s ≤ nsize x := nsize_of_mem_subnodes hs
  have h2 : nsize x < nsize n := nsize_input_lt hx
  rw [he] at h1
  omega

theorem WFg_sub {n s : Node} (h : WFg n) (hs : s ∈ subnodes n) : WFg s :=
  fun t ht => h t (subnodes_trans ht hs)

theorem WFg_self {n : Node} (h : WFg n) : localWF n := h n (self_mem_subnodes n)

theorem WFg_input {n x : Node} (h : WFg n) (hx : x ∈ n.inputs) : WFg x :=
  WFg_sub h (input_mem_subnodes hx)

theorem AllKnown_sub {n s : Node} (h : AllKnown n) (hs : s ∈ subnodes n) :
    AllKnown s :=
  fun t ht => h t (subnodes_trans ht hs)

theorem Coherent_sub {g s : Node} (h : Coherent g) (hs : s ∈ subnodes g) :
    Coherent s :=
  fun a ha b hb => h a (subnodes_trans ha hs) b (subnodes_trans hb hs)

theorem coherent_of_nodup {g : Node}
    (h : ((subnodes g).map Node.nid).Nodup) : Coherent g := by
  intro s hs t ht hid
  have hp : ((subnodes g).map Node.nid).Nodup := h
  rcases List.mem_iff_get.1 hs with ⟨⟨j, hj⟩, rfl⟩
  rcases List.mem_iff_get.1 ht with ⟨⟨k, hk⟩, rfl⟩
  by_cases hjk : j = k
  · subst hjk; rfl
  · exfalso
    have hget : ((subnodes g).map Node.nid).get ⟨j, by simpa using hj⟩ =
        ((subnodes g).map Node.nid).get ⟨k, by simpa using hk⟩ := by
      simpa [List.get_eq_getElem, List.getElem_map] using hid
    exact hjk (congrArg Fin.val (List.nodup_iff_injective_get.1 hp hget))

/-! ## Evaluation lemmas -/

theorem evaluateList_congr {us ns : List Node}
    (h : List.Forall₂ (fun u x => evaluate u = evaluate x) us ns) :
    evaluateList us = evaluateList ns := by
  induction h with
  | nil => rfl
  | cons h1 _ ih => simp [evaluateList, h1, ih]

theorem evaluate_value_some {i : Nat} {o : String} {v : ℚ}
    {sh : Option (Option (List Nat))} {f : List String} {ins : List Node} :
    evaluate (.mk i o (some v) sh f ins) = .ok v := by
  simp [evaluate]

theorem evaluate_value_none {i : Nat} {o : String}
    {sh : Option (Option (List Nat))} {f : List String} {ins : List Node} :
    evaluate (.mk i o none sh f ins) =
      match evaluateList ins with
      | .error e => .error e
      | .ok vs => applyOp o vs := by
  simp [evaluate]

/-! ## Constant folding preserves evaluation (for well-formed graphs) -/

theorem cfoldList_forall (ns : List Node) (ih : ∀ x ∈ ns, CfoldSpec x) :
    ∀ c, List.Forall₂
      (fun u x => evaluate u = evaluate x ∧
        (u.op = "const" → u.value.isSome = true))
      (cfoldList ns c).1 ns := by
  induction ns with
  | nil => intro c; simp [cfoldList]
  | cons a as ihs =>
    intro c
    have ha := ih a (List.mem_cons_self a as) c
    have has := ihs (fun x hx => ih x (List.mem_cons_of_mem a hx)) (cfoldVisit a c).2
    simp only [cfoldList]
    exact List.Forall₂.cons ⟨ha.1, ha.2⟩ has

theorem cfold_spec : ∀ n, WFg n → CfoldSpec n := by
  intro n
  induction n using Node.strongInd with
  | h i o v sh f ins ih =>
    intro hwf c
    by_cases hco : o = "const"
    · subst hco
      have hv : ((Node.mk i "const" v sh f ins).value).isSome = true :=
        ((WFg_self hwf).1 rfl).2
      simp only [cfoldVisit, if_pos rfl]
      exact ⟨rfl, fun _ => hv⟩
    · have hvn : v = none := by
        have h0 := (WFg_self hwf).2.2
        simp only [Node.op, Node.value] at h0
        exact h0 hco
      subst hvn
      obtain ⟨us, c2, hus⟩ : ∃ us c2, cfoldList ins c = (us, c2) :=
        ⟨(cfoldList ins c).1, (cfoldList ins c).2, rfl⟩
      have hall := cfoldList_forall ins
        (fun x hx => ih x hx (WFg_input hwf (by simpa [Node.inputs] using hx))) c
      rw [hus] at hall
      have hev : evaluateList us = evaluateList ins :=
        evaluateList_congr (List.Forall₂.imp (fun a b h => h.1) hall)
      by_cases hcc : allConst us = true
      · have hfold : ∀ w1 w2, evaluateList us = .ok [w1, w2] →
            evaluate (Node.mk i o none sh f ins) = applyOp o [w1, w2] := by
          intro w1 w2 hw
          rw [evaluate_value_none, ← hev, hw]
        by_cases hb : o = "add" ∨ o = "mul"
        · have hlen2 : ins.length = 2 := by
            have h0 := (WFg_self hwf).2.1
            simp only [Node.op, Node.inputs] at h0
            exact h0 (by tauto)
          rcases List.length_eq_two.1 hlen2 with ⟨a, b, rfl⟩
          cases hall with
          | cons h1 htl =>
            rename_i u1 us1
            cases htl with
            | cons h2 htl2 =>
              rename_i u2 us2
              cases htl2
              have hcc2 : u1.op = "const" ∧ u2.op = "const" := by
                simpa [allConst] using hcc
              have hop1 : u1.op = "const" := hcc2.1
              have hop2 : u2.op = "const" := hcc2.2
              rcases Option.isSome_iff_exists.1 (h1.2 hop1) with ⟨w1, hw1⟩
              rcases Option.isSome_iff_exists.1 (h2.2 hop2) with ⟨w2, hw2⟩
              have hevu : evaluateList [u1, u2] = .ok [w1, w2] := by
                cases u1 with
                | mk i1 o1 v1 sh1 f1 ins1 =>
                  cases u2 with
                  | mk i2 o2 v2 sh2 f2 ins2 =>
                    simp only [Node.value] at hw1 hw2
                    subst hw1; subst hw2
                    simp [evaluateList, evaluate]
              have heval : evaluate (Node.mk i o none sh f [a, b]) =
                  applyOp o [w1, w2] := hfold w1 w2 hevu
              have hseq : seqOpt ([u1, u2].map Node.value) = some [w1, w2] := by
                simp [seqOpt, hw1, hw2]
              rcases hb with hb | hb
              · subst hb
                refine ⟨?_, ?_⟩
                · simp only [cfoldVisit, if_neg hco, hus, hcc, if_pos rfl, hseq,
                    heval]
                  simp [constant, evaluate, applyOp]
                · intro _
                  simp only [cfoldVisit, if_neg hco, hus, hcc, if_pos rfl, hseq]
                  simp [constant, Node.value]
              · subst hb
                refine ⟨?_, ?_⟩
                · simp only [cfoldVisit, if_neg hco, hus, hcc,
                    if_neg (by simp : ¬ ("mul" : String) = "add"), if_pos rfl,
                    hseq, heval]
                  simp [constant, evaluate, applyOp]
                · intro _
                  simp only [cfoldVisit, if_neg hco, hus, hcc,
                    if_neg (by simp : ¬ ("mul" : String) = "add"), if_pos rfl,
                    hseq]
                  simp [constant, Node.value]
        · push_neg at hb
          refine ⟨?_, ?_⟩
          · simp only [cfoldVisit, if_neg hco, hus, hcc, if_neg hb.1,
              if_neg hb.2, if_true, eq_self_iff_true]
            rw [evaluate_value_none, evaluate_value_none, hev]
          · intro hopc
            simp only [cfoldVisit, if_neg hco, hus, hcc, if_neg hb.1,
              if_neg hb.2, if_true, eq_self_iff_true, Node.op] at hopc
            exact absurd hopc hco
      · refine ⟨?_, ?_⟩
        · simp only [cfoldVisit, if_neg hco, hus, if_neg hcc]
          rw [evaluate_value_none, evaluate_value_none, hev]
        · intro hopc
          simp only [cfoldVisit, if_neg hco, hus, if_neg hcc, Node.op] at hopc
          exact absurd hopc hco

/-! ## CSE preserves evaluation (for id-coherent graphs) -/

theorem eval_eq_sigma {g s : Node} (hg : Coherent g) (hs : s ∈ subnodes g) :
    evaluate s = sigmaEval g s.nid := by
  have hex : (subnodes g).find? (fun t => decide (t.nid = s.nid)) |>.isSome := by
    rw [List.find?_isSome]
    exact ⟨s, hs, by simp⟩
  rcases Option.isSome_iff_exists.1 hex with ⟨t, hfind⟩
  have ht : t ∈ subnodes g := List.mem_of_find?_eq_some hfind
  have hid : t.nid = s.nid := by
    have := List.find?_some hfind
    simpa using this
  have : t = s := hg t ht s hs hid
  subst this
  simp [sigmaEval, findSub, hfind]

theorem evaluateList_eq_sigma_seq {g : Node} {us : List Node}
    (h : ∀ u ∈ us, evaluate u = sigmaEval g u.nid) :
    evaluateList us = seqExc ((us.map Node.nid).map (sigmaEval g)) := by
  induction us with
  | nil => rfl
  | cons a as ih =>
    have ha := h a (List.mem_cons_self a as)
    have has := ih (fun u hu => h u (List.mem_cons_of_mem a hu))
    simp only [evaluateList, List.map_cons, seqExc, ← ha, ← has]

theorem cseList_spec (g : Node) (ns : List Node)
    (ih : ∀ x ∈ ns, x ∈ subnodes g → ∀ m, CseInv g m →
      CseRet g x (cseVisit x m).1 ∧ CseInv g (cseVisit x m).2)
    (hns : ∀ x ∈ ns, x ∈ subnodes g) :
    ∀ m, CseInv g m →
      List.Forall₂ (fun u x => CseRet g x u) (cseList ns m).1 ns ∧
      CseInv g (cseList ns m).2 := by
  induction ns with
  | nil => intro m hm; exact ⟨by simp [cseList], hm⟩
  | cons a as ihs =>
    intro m hm
    have ha := ih a (List.mem_cons_self a as) (hns a (List.mem_cons_self a as)) m hm
    have has := ihs (fun x hx => ih x (List.mem_cons_of_mem a hx))
      (fun x hx => hns x (List.mem_cons_of_mem a hx)) (cseVisit a m).2 ha.2
    simp only [cseList]
    exact ⟨List.Forall₂.cons ha.1 has.1, has.2⟩

theorem cseVisit_spec (g : Node) (hg : Coherent g) :
    ∀ n, n ∈ subnodes g → ∀ m, CseInv g m →
      CseRet g n (cseVisit n m).1 ∧ CseInv g (cseVisit n m).2 := by
  intro n
  induction n using Node.strongInd with
  | h i o v sh f ins ih =>
    intro hn m hm
    by_cases hemp : ins.isEmpty = true
    · simp only [cseVisit, hemp, if_true]
      exact ⟨⟨rfl, eval_eq_sigma hg hn⟩, hm⟩
    · obtain ⟨us, m1, hus⟩ : ∃ us m1, cseList ins m = (us, m1) :=
        ⟨(cseList ins m).1, (cseList ins m).2, rfl⟩
      have hins : ∀ x ∈ ins, x ∈ subnodes g := fun x hx =>
        subnodes_trans (self_mem_subnodes x)
          (subnodes_trans (input_mem_subnodes (by simpa [Node.inputs] using hx)) hn)
      have hlist := cseList_spec g ins ih hins m hm
      rw [hus] at hlist
      have hall : List.Forall₂ (fun u x => CseRet g x u) us ins := hlist.1
      have hm1 : CseInv g m1 := hlist.2
      have hanch : ∀ u ∈ us, evaluate u = sigmaEval g u.nid := by
        intro u hu
        rcases List.forall₂_iff_get.1 hall with ⟨hlen, hget⟩
        rcases List.mem_iff_get.1 hu with ⟨⟨j, hj⟩, rfl⟩
        exact (hget j hj (by omega)).2
      have hevcong : evaluateList us = evaluateList ins :=
        evaluateList_congr (List.Forall₂.imp (fun a b h => h.1) hall)
      have hA : evaluate (Node.mk i o v sh f us) =
          keySem g (o, us.map Node.nid, v) := by
        cases v with
        | some w => simp [evaluate, keySem]
        | none =>
          rw [evaluate_value_none, keySem]
          simp only
          rw [evaluateList_eq_sigma_seq hanch]
      have hB : evaluate (Node.mk i o v sh f us) =
          evaluate (Node.mk i o v sh f ins) := by
        cases v with
        | some w => simp [evaluate]
        | none => rw [evaluate_value_none, evaluate_value_none, hevcong]
      have hC : evaluate (Node.mk i o v sh f ins) =
          sigmaEval g i := by
        have := eval_eq_sigma hg hn
        simpa [Node.nid] using this
      cases hlk : lookupKey (o, us.map Node.nid, v) m1 with
      | some nf =>
        rcases hm1 _ _ hlk with ⟨hk1, hk2⟩
        refine ⟨⟨?_, ?_⟩, ?_⟩
        · simp only [cseVisit, if_neg hemp, hus, hlk]
          rw [hk1, ← hA, hB]
        · simp only [cseVisit, if_neg hemp, hus, hlk]
          exact hk2
        · simp only [cseVisit, if_neg hemp, hus, hlk]
          exact hm1
      | none =>
        refine ⟨⟨?_, ?_⟩, ?_⟩
        · simp only [cseVisit, if_neg hemp, hus, hlk]
          exact hB
        · simp only [cseVisit, if_neg hemp, hus, hlk]
          rw [hB, hC]
          simp [Node.nid]
        · simp only [cseVisit, if_neg hemp, hus, hlk]
          intro k n' hlkk
          by_cases hkk : k = (o, us.map Node.nid, v)
          · subst hkk
            simp only [lookupKey, if_pos rfl] at hlkk
            cases hlkk
            exact ⟨hA, by rw [hB, hC]; simp [Node.nid]⟩
          · simp only [lookupKey, if_neg hkk] at hlkk
            exact hm1 k n' hlkk

theorem cse_preserves {g : Node} (hg : Coherent g) :
    evaluate (Cse.optimize g) = evaluate g := by
  have h := cseVisit_spec g hg g (self_mem_subnodes g) []
    (fun k n' h => by simp [lookupKey] at h)
  exact h.1.1

/-! ## The pattern pass preserves successful evaluation -/

theorem evaluateList_ok_length {ns : List Node} {vs : List ℚ}
    (h : evaluateList ns = .ok vs) : vs.length = ns.length := by
  induction ns generalizing vs with
  | nil => cases h; rfl
  | cons a as ih =>
    simp only [evaluateList] at h
    cases ha : evaluate a with
    | error e => rw [ha] at h; cases h
    | ok w =>
      rw [ha] at h
      cases has : evaluateList as with
      | error e => rw [has] at h; cases h
      | ok ws =>
        rw [has] at h
        cases h
        simp [ih has]

theorem evaluate_of_value {u : Node} {w : ℚ} (h : u.value = some w) :
    evaluate u = .ok w := by
  cases u with
  | mk i o v sh f ins =>
    simp only [Node.value] at h
    subst h
    simp [evaluate]

theorem evaluateList_pair {u1 u2 : Node} {w1 w2 : ℚ}
    (h : evaluateList [u1, u2] = .ok [w1, w2]) :
    evaluate u1 = .ok w1 ∧ evaluate u2 = .ok w2 := by
  simp only [evaluateList] at h
  cases h1 : evaluate u1 with
  | error e => simp only [h1] at h; cases h
  | ok x1 =>
    simp only [h1] at h
    cases h2 : evaluate u2 with
    | error e => simp only [h2] at h; cases h
    | ok x2 =>
      simp only [h2, Except.ok.injEq, List.cons.injEq, and_true] at h
      obtain ⟨hx1, hx2⟩ := h
      subst hx1; subst hx2
      exact ⟨rfl, rfl⟩

theorem firstPattern_eq (n : Node) (c : Nat) :
    firstPattern patterns n c =
      if patMatchZero n then patReplaceZero n c
      else if patMatchOne n then patReplaceOne n c
      else .ok (n, c) := by
  simp [firstPattern, patterns]

theorem patList_spec (ns : List Node)
    (ih : ∀ x ∈ ns, ∀ c u c1, patVisit x c = .ok (u, c1) →
      ∀ w, evaluate x = .ok w → evaluate u = .ok w) :
    ∀ c us c1, patList ns c = .ok (us, c1) →
      ∀ vs, evaluateList ns = .ok vs → evaluateList us = .ok vs := by
  induction ns with
  | nil =>
    intro c us c1 h vs hv
    cases h
    exact hv
  | cons a as ihs =>
    intro c us c1 h vs hv
    simp only [patList] at h
    cases hp : patVisit a c with
    | error e => simp only [hp] at h; cases h
    | ok uc =>
      obtain ⟨u, ca⟩ := uc
      simp only [hp] at h
      cases hps : patList as ca with
      | error e => simp only [hps] at h; cases h
      | ok usc =>
        obtain ⟨us', c1'⟩ := usc
        simp only [hps, Except.ok.injEq, Prod.mk.injEq] at h
        obtain ⟨hus, hc1⟩ := h
        subst hus; subst hc1
        simp only [evaluateList] at hv ⊢
        cases ha : evaluate a with
        | error e => rw [ha] at hv; cases hv
        | ok va =>
          rw [ha] at hv
          cases has : evaluateList as with
          | error e => rw [has] at hv; cases hv
          | ok vas =>
            rw [has] at hv
            cases hv
            rw [ih a (List.mem_cons_self a as) c u ca hp va ha,
              ihs (fun x hx => ih x (List.mem_cons_of_mem a hx)) ca us' c1' hps
                vas has]

theorem patterns_preserve : ∀ n, WFg n → ∀ c u c1, patVisit n c = .ok (u, c1) →
    ∀ w, evaluate n = .ok w → evaluate u = .ok w := by
  intro n
  induction n using Node.strongInd with
  | h i o v sh f ins ih =>
    intro hwf c u c1 hp w hw
    simp only [patVisit] at hp
    cases hpl : patList ins c with
    | error e => simp only [hpl] at hp; cases hp
    | ok usc =>
      obtain ⟨us, cs⟩ := usc
      simp only [hpl] at hp
      have hlist := patList_spec ins
        (fun x hx => ih x hx (WFg_input hwf (by simpa [Node.inputs] using hx))) c us
        cs hpl
      cases v with
      | some wv =>
        -- a cached value means the node is a constant (WF), with no inputs
        have hoc : o = "const" := by
          by_contra hne
          have h0 := (WFg_self hwf).2.2 (by simpa [Node.op] using hne)
          simp [Node.value] at h0
        subst hoc
        have hins : ins = [] := by
          have h0 := ((WFg_self hwf).1 (by simp [Node.op])).1
          simpa [Node.inputs, List.isEmpty_iff] using h0
        subst hins
        cases hpl
        rw [firstPattern_eq] at hp
        simp only [patMatchZero, patMatchOne, Node.op, Node.inputs] at hp
        simp only [List.any_nil, Bool.and_false, if_false] at hp
        cases hp
        exact hw
      | none =>
        rw [evaluate_value_none] at hw
        cases hev : evaluateList ins with
        | error e => rw [hev] at hw; cases hw
        | ok vs =>
          rw [hev] at hw
          have hevu : evaluateList us = .ok vs := hlist vs hev
          rw [firstPattern_eq] at hp
          by_cases hm0 : patMatchZero (Node.mk i o none sh f us) = true
          · rw [if_pos hm0] at hp
            cases hp
            have ho : o = "mul" := by
              have := hm0
              simp only [patMatchZero, Node.op, Bool.and_eq_true, decide_eq_true_eq] at this
              exact this.1
            subst ho
            have hzero : ∃ j ∈ us, j.value = some 0 := by
              have := hm0
              simp only [patMatchZero, Node.inputs, Bool.and_eq_true,
                List.any_eq_true] at this
              rcases this.2 with ⟨j, hj, hjv⟩
              refine ⟨j, hj, ?_⟩
              cases hv : j.value with
              | none => rw [hv] at hjv; cases hjv
              | some q =>
                rw [hv] at hjv
                simp only [decide_eq_true_eq] at hjv
                rw [hjv]
            have harg : ins.length = 2 := by
              have h0 := (WFg_self hwf).2.1
              simp only [Node.op, Node.inputs] at h0
              exact h0 (by tauto)
            have hvs2 : vs.length = 2 := by rw [evaluateList_ok_length hev, harg]
            rcases List.length_eq_two.1 hvs2 with ⟨w1, w2, rfl⟩
            have hw' : w = w1 * w2 := by
              simp only [applyOp, if_pos rfl] at hw
              simp only [if_neg (by simp : ¬ ("mul" : String) = "add")] at hw
              cases hw
              rfl
            have hus2 : us.length = 2 := by
              have := evaluateList_ok_length hevu
              omega
            rcases List.length_eq_two.1 hus2 with ⟨u1, u2, rfl⟩
            rcases evaluateList_pair hevu with ⟨he1, he2⟩
            rcases hzero with ⟨j, hj, hjv⟩
            have hj0 : evaluate j = .ok 0 := evaluate_of_value hjv
            have : w = 0 := by
              rcases List.mem_pair.1 hj with rfl | rfl
              · rw [he1] at hj0; cases hj0; simp [hw']
              · rw [he2] at hj0; cases hj0; simp [hw']
            subst this
            simp [constant, evaluate]
          · rw [if_neg hm0] at hp
            by_cases hm1 : patMatchOne (Node.mk i o none sh f us) = true
            · rw [if_pos hm1] at hp
              have ho : o = "mul" := by
                have := hm1
                simp only [patMatchOne, Node.op, Bool.and_eq_true,
                  decide_eq_true_eq] at this
                exact this.1
              subst ho
              have harg : ins.length = 2 := by
                have h0 := (WFg_self hwf).2.1
                simp only [Node.op, Node.inputs] at h0
                exact h0 (by tauto)
              have hvs2 : vs.length = 2 := by rw [evaluateList_ok_length hev, harg]
              rcases List.length_eq_two.1 hvs2 with ⟨w1, w2, rfl⟩
              have hw' : w = w1 * w2 := by
                simp only [applyOp, if_pos rfl] at hw
                simp only [if_neg (by simp : ¬ ("mul" : String) = "add")] at hw
                cases hw
                rfl
              have hus2 : us.length = 2 := by
                have := evaluateList_ok_length hevu
                omega
              rcases List.length_eq_two.1 hus2 with ⟨u1, u2, rfl⟩
              rcases evaluateList_pair hevu with ⟨he1, he2⟩
              simp only [patReplaceOne, Node.inputs] at hp
              by_cases hu1 : u1.value = some 1
              · -- find? skips u1
                have hone : evaluate u1 = .ok 1 := evaluate_of_value hu1
                have hw1 : w1 = 1 := by rw [he1] at hone; cases hone; rfl
                by_cases hu2 : u2.value = some 1
                · exfalso
                  rw [List.find?_cons_of_neg _ (by simp [hu1]),
                    List.find?_cons_of_neg _ (by simp [hu2]),
                    List.find?_nil] at hp
                  cases hp
                · rw [List.find?_cons_of_neg _ (by simp [hu1]),
                    List.find?_cons_of_pos _ (by simp [hu2])] at hp
                  obtain ⟨hu, -⟩ : u2 = u ∧ cs = c1 := by
                    simpa [Prod.ext_iff] using hp
                  subst hu
                  rw [he2, hw', hw1, one_mul]
              · rw [List.find?_cons_of_pos _ (by simp [hu1])] at hp
                obtain ⟨hu, -⟩ : u1 = u ∧ cs = c1 := by
                  simpa [Prod.ext_iff] using hp
                subst hu
                -- the literal-1 operand must be the other input
                have hone : ∃ j ∈ [u1, u2], j.value = some 1 := by
                  have := hm1
                  simp only [patMatchOne, Node.inputs, Bool.and_eq_true,
                    List.any_eq_true] at this
                  rcases this.2 with ⟨j, hj, hjv⟩
                  refine ⟨j, hj, ?_⟩
                  cases hv : j.value with
                  | none => rw [hv] at hjv; cases hjv
                  | some q =>
                    rw [hv] at hjv
                    simp only [decide_eq_true_eq] at hjv
                    rw [hjv]
                rcases hone with ⟨j, hj, hjv⟩
                rcases List.mem_pair.1 hj with rfl | rfl
                · exact absurd hjv hu1
                · have h2 : evaluate j = .ok 1 := evaluate_of_value hjv
                  have hw2 : w2 = 1 := by rw [he2] at h2; cases h2; rfl
                  rw [he1, hw', hw2, mul_one]
            · rw [if_neg hm1] at hp
              cases hp
              rw [evaluate_value_none, hevu]
              exact hw

/-! ## Evaluation failure analysis (unknown operators) -/

theorem applyOp_unknown {o : String} (h1 : o ≠ "add") (h2 : o ≠ "mul")
    (h3 : o ≠ "div") (vs : List ℚ) : applyOp o vs = .error (.unknownOp o) := by
  simp [applyOp, if_neg h1, if_neg h2, if_neg h3]

theorem evaluateList_ok_or_unknown {ns : List Node}
    (h : ∀ x ∈ ns, (∃ v, evaluate x = .ok v) ∨
      (∃ s, evaluate x = .error (.unknownOp s))) :
    (∃ vs, evaluateList ns = .ok vs ∧ vs.length = ns.length) ∨
      (∃ s, evaluateList ns = .error (.unknownOp s)) := by
  induction ns with
  | nil => exact Or.inl ⟨[], rfl, rfl⟩
  | cons a as ih =>
    rcases h a (List.mem_cons_self a as) with ⟨v, hv⟩ | ⟨s, hs⟩
    · rcases ih (fun x hx => h x (List.mem_cons_of_mem a hx)) with
        ⟨vs, hvs, hlen⟩ | ⟨s, hs⟩
      · exact Or.inl ⟨v :: vs, by simp [evaluateList, hv, hvs], by simp [hlen]⟩
      · exact Or.inr ⟨s, by simp [evaluateList, hv, hs]⟩
    · exact Or.inr ⟨s, by simp [evaluateList, hs]⟩

theorem evaluate_ok_or_unknown : ∀ n, WFg n →
    (∃ v, evaluate n = .ok v) ∨ (∃ s, evaluate n = .error (.unknownOp s)) := by
  intro n
  induction n using Node.strongInd with
  | h i o v sh f ins ih =>
    intro hwf
    cases v with
    | some w => exact Or.inl ⟨w, by simp [evaluate]⟩
    | none =>
      rcases evaluateList_ok_or_unknown
          (fun x hx => ih x hx (WFg_input hwf (by simpa [Node.inputs] using hx))) with
        ⟨vs, hvs, hlen⟩ | ⟨s, hs⟩
      · by_cases hb : o = "add" ∨ o = "mul" ∨ o = "div"
        · have harg : ins.length = 2 := by
            have h0 := (WFg_self hwf).2.1
            simp only [Node.op, Node.inputs] at h0
            exact h0 hb
          have hvs2 : vs.length = 2 := by omega
          rcases List.length_eq_two.1 hvs2 with ⟨a, b, rfl⟩
          rcases hb with hb | hb | hb
          all_goals subst hb
          · exact Or.inl ⟨a + b, by rw [evaluate_value_none, hvs]; simp [applyOp]⟩
          · exact Or.inl ⟨a * b, by rw [evaluate_value_none, hvs]; simp [applyOp]⟩
          · exact Or.inl ⟨a / b, by rw [evaluate_value_none, hvs]; simp [applyOp]⟩
        · push_neg at hb
          refine Or.inr ⟨o, ?_⟩
          rw [evaluate_value_none, hvs]
          exact applyOp_unknown hb.1 hb.2.1 hb.2.2 vs
      · exact Or.inr ⟨s, by rw [evaluate_value_none, hs]⟩

theorem evaluate_unknown_fails {n : Node} (hwf : WFg n) (hv : n.value = none)
    (ho : ¬ (n.op = "add" ∨ n.op = "mul" ∨ n.op = "div")) :
    ∃ s, evaluate n = .error (.unknownOp s) := by
  cases n with
  | mk i o v sh f ins =>
    simp only [Node.value] at hv
    subst hv
    simp only [Node.op] at ho
    push_neg at ho
    rcases evaluateList_ok_or_unknown
        (fun x hx => evaluate_ok_or_unknown x
          (WFg_input hwf (by simpa [Node.inputs] using hx))) with
      ⟨vs, hvs, _⟩ | ⟨s, hs⟩
    · refine ⟨o, ?_⟩
      rw [evaluate_value_none, hvs]
      exact applyOp_unknown ho.1 ho.2.1 ho.2.2 vs
    · refine ⟨s, ?_⟩
      rw [evaluate_value_none, hs]

theorem evaluate_allknown_ok : ∀ n, WFg n → AllKnown n → ∃ v, evaluate n = .ok v := by
  intro n
  induction n using Node.strongInd with
  | h i o v sh f ins ih =>
    intro hwf hak
    cases v with
    | some w => exact ⟨w, by simp [evaluate]⟩
    | none =>
      have hb : o = "add" ∨ o = "mul" ∨ o = "div" := by
        have h0 := hak _ (self_mem_subnodes _)
        simpa [Node.op, Node.value] using h0
      have harg : ins.length = 2 := by
        have h0 := (WFg_self hwf).2.1
        simp only [Node.op, Node.inputs] at h0
        exact h0 hb
      rcases List.length_eq_two.1 harg with ⟨a, b, rfl⟩
      rcases ih a (by simp) (WFg_input hwf (by simp [Node.inputs]))
          (AllKnown_sub hak (input_mem_subnodes (by simp [Node.inputs]))) with ⟨va, hva⟩
      rcases ih b (by simp) (WFg_input hwf (by simp [Node.inputs]))
          (AllKnown_sub hak (input_mem_subnodes (by simp [Node.inputs]))) with ⟨vb, hvb⟩
      have hev : evaluateList [a, b] = .ok [va, vb] := by
        simp [evaluateList, hva, hvb]
      rcases hb with hb | hb | hb
      all_goals subst hb
      · exact ⟨va + vb, by rw [evaluate_value_none, hev]; simp [applyOp]⟩
      · exact ⟨va * vb, by rw [evaluate_value_none, hev]; simp [applyOp]⟩
      · exact ⟨va / vb, by rw [evaluate_value_none, hev]; simp [applyOp]⟩

/-! ## Compilation of all-constant add/mul graphs -/

theorem PureAddMul_sub {n s : Node} (h : PureAddMul n) (hs : s ∈ subnodes n) :
    PureAddMul s :=
  fun t ht => h t (subnodes_trans ht hs)

theorem PureAddMul_self {n : Node} (h : PureAddMul n) :
    (n.op = "const" ∧ n.inputs.isEmpty = true ∧ n.value.isSome = true) ∨
    ((n.op = "add" ∨ n.op = "mul") ∧ n.inputs.length = 2 ∧ n.value = none) :=
  h n (self_mem_subnodes n)

theorem PureAddMul_wf {n : Node} (h : PureAddMul n) : WFg n := by
  intro s hs
  rcases h s hs with ⟨h1, h2, h3⟩ | ⟨h1, h2, h3⟩
  · refine ⟨fun _ => ⟨h2, h3⟩, fun hb => ?_, fun hne => absurd h1 hne⟩
    rcases hb with hb | hb | hb <;> rw [hb] at h1 <;> simp at h1
  · have hnc : s.op ≠ "const" := by
      rcases h1 with h1 | h1 <;> rw [h1] <;> simp
    exact ⟨fun hc => absurd hc hnc, fun _ => h2, fun _ => h3⟩

theorem pure_cfold : ∀ n, PureAddMul n → ∀ c,
    ∃ w, (cfoldVisit n c).1.op = "const" ∧ (cfoldVisit n c).1.value = some w ∧
      (cfoldVisit n c).1.inputs = [] ∧ evaluate n = .ok w := by
  intro n
  induction n using Node.strongInd with
  | h i o v sh f ins ih =>
    intro hp c
    rcases PureAddMul_self hp with ⟨h1, h2, h3⟩ | ⟨h1, h2, h3⟩
    · simp only [Node.op] at h1
      subst h1
      have hins : ins = [] := by simpa [Node.inputs, List.isEmpty_iff] using h2
      subst hins
      rcases Option.isSome_iff_exists.1 (by simpa [Node.value] using h3) with ⟨w, hw⟩
      simp only [Node.value] at hw
      subst hw
      refine ⟨w, ?_⟩
      simp only [cfoldVisit, if_pos rfl]
      exact ⟨rfl, rfl, rfl, by simp [evaluate]⟩
    · simp only [Node.inputs] at h2
      simp only [Node.value] at h3
      subst h3
      rcases List.length_eq_two.1 h2 with ⟨a, b, rfl⟩
      have hpa : PureAddMul a := PureAddMul_sub hp (input_mem_subnodes (by simp [Node.inputs]))
      have hpb : PureAddMul b := PureAddMul_sub hp (input_mem_subnodes (by simp [Node.inputs]))
      obtain ⟨u1, c1, hc1⟩ : ∃ u1 c1, cfoldVisit a c = (u1, c1) := ⟨_, _, rfl⟩
      obtain ⟨u2, c2, hc2⟩ : ∃ u2 c2, cfoldVisit b c1 = (u2, c2) := ⟨_, _, rfl⟩
      rcases ih a (by simp) hpa c with ⟨wa, hoa, hva, _, hea⟩
      rcases ih b (by simp) hpb c1 with ⟨wb, hob, hvb, _, heb⟩
      rw [hc1] at hoa hva
      rw [hc2] at hob hvb
      have hl : cfoldList [a, b] c = ([u1, u2], c2) := by
        simp [cfoldList, hc1, hc2]
      have hall : allConst [u1, u2] = true := by
        simp [allConst, hoa, hob]
      have hseq : seqOpt ([u1, u2].map Node.value) = some [wa, wb] := by
        simp [seqOpt, hva, hvb]
      have hne : o ≠ "const" := by
        rcases h1 with h1 | h1 <;> simp only [Node.op] at h1 <;> rw [h1] <;> simp
      have hev : evaluateList [a, b] = .ok [wa, wb] := by
        simp [evaluateList, hea, heb]
      rcases h1 with h1 | h1
      · simp only [Node.op] at h1
        subst h1
        refine ⟨0 + wa + wb, ?_⟩
        simp only [cfoldVisit, if_neg (by simp : ¬ ("add" : String) = "const"),
          hl, hall, if_true, if_pos rfl, hseq]
        refine ⟨by simp [constant, Node.op], by simp [constant, Node.value], ?_, ?_⟩
        · simp [constant, Node.inputs]
        · rw [evaluate_value_none, hev]
          simp [applyOp]
      · simp only [Node.op] at h1
        subst h1
        refine ⟨wa * wb, ?_⟩
        simp only [cfoldVisit, if_neg (by simp : ¬ ("mul" : String) = "const"),
          hl, hall, if_true, if_neg (by simp : ¬ ("mul" : String) = "add"),
          if_pos rfl, hseq]
        refine ⟨by simp [constant, Node.op], by simp [constant, Node.value], ?_, ?_⟩
        · simp [constant, Node.inputs]
        · rw [evaluate_value_none, hev]
          simp [applyOp]

theorem pipeline_const (i : Nat) (v : ℚ) (sh : Option (Option (List Nat)))
    (f : List String) (c : Nat) :
    Cse.optimize (.mk i "const" (some v) sh f []) = .mk i "const" (some v) sh f [] ∧
    DeadCode.optimize (.mk i "const" (some v) sh f []) = .mk i "const" (some v) sh f [] ∧
    Fusion.optimize (.mk i "const" (some v) sh f []) c =
      (.mk i "const" (some v) sh f [], c) ∧
    apply_patterns (.mk i "const" (some v) sh f []) c =
      .ok (.mk i "const" (some v) sh f [], c) := by
  refine ⟨?_, rfl, ?_, ?_⟩
  · simp [Cse.optimize, cseVisit, Node.inputs]
  · simp [Fusion.optimize, find_fusion_candidates, fusionFind, fusionFindList]
  · simp [apply_patterns, patVisit, patList, firstPattern, patterns,
      patMatchZero, patMatchOne, Node.op, Node.inputs]

theorem compile_pure {g : Node} (hp : PureAddMul g) (c : Nat) :
    ∃ r c' w, Compiler.compile g c = .ok (r, c') ∧ r.op = "const" ∧
      r.inputs = [] ∧ r.value = some w ∧ evaluate r = .ok w ∧
      evaluate g = .ok w := by
  rcases pure_cfold g hp c with ⟨w, hop, hval, hins, hev⟩
  obtain ⟨r0, c0, hr0⟩ : ∃ r0 c0, cfoldVisit g c = (r0, c0) := ⟨_, _, rfl⟩
  rw [hr0] at hop hval hins
  cases r0 with
  | mk i0 o0 v0 sh0 f0 ins0 =>
    simp only [Node.op] at hop
    simp only [Node.value] at hval
    simp only [Node.inputs] at hins
    subst hop; subst hval; subst hins
    rcases pipeline_const i0 w sh0 f0 c0 with ⟨hcse, hdce, hfus, hpat⟩
    refine ⟨.mk i0 "const" (some w) sh0 f0 [], c0, w, ?_, rfl, rfl, rfl, ?_, hev⟩
    · simp only [Compiler.compile, ConstantFolding.optimize, hr0, hcse, hdce,
        hfus, hpat]
    · simp [evaluate]

/-! ## Topological sort: id-level invariants -/

theorem topoList_aux (ns : List Node) (ih : ∀ x ∈ ns, TopoStmt x) :
    TopoStmtL ns := by
  induction ns with
  | nil =>
    intro vis ord hI hO
    exact ⟨⟨[], by simp [topoList]⟩, fun i hi => by simpa [topoList] using hi,
      fun y hy => absurd hy (List.not_mem_nil y),
      by simpa [topoList] using hI, by simpa [topoList] using hO,
      fun i hi => Or.inl (by simpa [topoList] using hi)⟩
  | cons x xs ihs =>
    intro vis ord hI hO
    obtain ⟨p1, hp1⟩ : ∃ p1, topoVisit x (vis, ord) = p1 := ⟨_, rfl⟩
    obtain ⟨vis1, ord1⟩ := p1
    rcases ih x (List.mem_cons_self x xs) vis ord hI hO with
      ⟨⟨d1, hd1⟩, hv1, hx1, hI1, hO1, hnew1⟩
    rw [hp1] at hd1 hv1 hx1 hI1 hO1 hnew1
    dsimp only at hd1 hv1 hx1 hI1 hO1 hnew1
    have hstep : topoList (x :: xs) (vis, ord) = topoList xs (vis1, ord1) := by
      simp [topoList, hp1]
    rcases ihs (fun z hz => ih z (List.mem_cons_of_mem x hz)) vis1 ord1 hI1 hO1 with
      ⟨⟨d2, hd2⟩, hv2, hall2, hI2, hO2, hnew2⟩
    rw [hstep]
    refine ⟨⟨d1 ++ d2, by rw [hd2, hd1, List.append_assoc]⟩,
      fun i hi => hv2 i (hv1 i hi), ?_, hI2, hO2, ?_⟩
    · intro y hy
      rcases List.mem_cons.1 hy with rfl | hy
      · exact hv2 _ hx1
      · exact hall2 y hy
    · intro i hi
      rcases hnew2 i hi with hi1 | hi1
      · rcases hnew1 i hi1 with hi0 | hi0
        · exact Or.inl hi0
        · refine Or.inr ?_
          rw [hd2]
          rcases List.mem_map.1 hi0 with ⟨z, hz, hzi⟩
          exact List.mem_map.2 ⟨z, List.mem_append_left _ hz, hzi⟩
      · exact Or.inr hi1

theorem topoVisit_aux : ∀ n, TopoStmt n := by
  intro n
  induction n using Node.strongInd with
  | h i o v sh f ins ih =>
    intro vis ord hI hO
    by_cases hiv : i ∈ vis
    · have hvv : topoVisit (Node.mk i o v sh f ins) (vis, ord) = (vis, ord) := by
        simp [topoVisit, hiv]
      rw [hvv]
      exact ⟨⟨[], by simp⟩, fun j hj => hj, by simpa [Node.nid] using hiv, hI, hO,
        fun j hj => Or.inl hj⟩
    · obtain ⟨q, hq⟩ : ∃ q, topoList ins (i :: vis, ord) = q := ⟨_, rfl⟩
      obtain ⟨vis2, ord2⟩ := q
      have hvv : topoVisit (Node.mk i o v sh f ins) (vis, ord) =
          (vis2, ord2 ++ [Node.mk i o v sh f ins]) := by
        simp [topoVisit, hiv, hq]
      rcases topoList_aux ins ih (i :: vis) ord
          (fun x hx y hy => List.mem_cons_of_mem i (hI x hx y hy))
          (fun x hx => List.mem_cons_of_mem i (hO x hx)) with
        ⟨⟨d2, hd2⟩, hv2, hall2, hI2, hO2, hnew2⟩
      rw [hq] at hd2 hv2 hall2 hI2 hO2 hnew2
      dsimp only at hd2 hv2 hall2 hI2 hO2 hnew2
      rw [hvv]
      have hivis2 : i ∈ vis2 := hv2 i (List.mem_cons_self i vis)
      refine ⟨⟨d2 ++ [Node.mk i o v sh f ins], by rw [hd2, List.append_assoc]⟩,
        fun j hj => hv2 j (List.mem_cons_of_mem i hj),
        by simpa [Node.nid] using hivis2, ?_, ?_, ?_⟩
      · intro x hx y hy
        rcases List.mem_append.1 hx with hx | hx
        · exact hI2 x hx y hy
        · have hxn : x = Node.mk i o v sh f ins := by simpa using hx
          subst hxn
          exact hall2 y (by simpa [Node.inputs] using hy)
      · intro x hx
        rcases List.mem_append.1 hx with hx | hx
        · exact hO2 x hx
        · have hxn : x = Node.mk i o v sh f ins := by simpa using hx
          subst hxn
          simpa [Node.nid] using hivis2
      · intro j hj
        rcases hnew2 j hj with hj1 | hj1
        · rcases List.mem_cons.1 hj1 with rfl | hj1
          · exact Or.inr (by simp [Node.nid])
          · exact Or.inl hj1
        · exact Or.inr (by simp [hj1])

/-- Every id in the visited set of the finished sort is the id of a
node of the order, and conversely; the root is in the order, and the
inputs of every ordered node have their ids in the order. -/
theorem topological_sort_closed (g : Node) :
    g.nid ∈ (topological_sort g).map Node.nid ∧
    (∀ x ∈ topological_sort g, ∀ y ∈ x.inputs,
      y.nid ∈ (topological_sort g).map Node.nid) := by
  rcases topoVisit_aux g [] []
      (fun x hx => absurd hx (List.not_mem_nil x))
      (fun x hx => absurd hx (List.not_mem_nil x)) with
    ⟨_, _, hg, hI, _, hnew⟩
  constructor
  · rcases hnew _ hg with h | h
    · cases h
    · exact h
  · intro x hx y hy
    rcases hnew _ (hI x hx y hy) with h | h
    · cases h
    · exact h

/-! ## Topological sort: correctness under id coherence -/

theorem topoSorted_nil : TopoSorted [] := by
  intro j hj
  simp at hj

theorem topoSorted_append {l : List Node} {n : Node} (hl : TopoSorted l)
    (hn : ∀ y ∈ n.inputs, y ∈ l) : TopoSorted (l ++ [n]) := by
  intro j hj inp hinp
  have hjlen : j < l.length + 1 := by simpa using hj
  by_cases hjl : j < l.length
  · have hget : (l ++ [n]).get ⟨j, hj⟩ = l.get ⟨j, hjl⟩ := by
      simp [List.get_eq_getElem, List.getElem_append_left hjl]
    rcases hl j hjl inp (by rwa [hget] at hinp) with ⟨k, hk, hkj, hgk⟩
    refine ⟨k, by simp; omega, hkj, ?_⟩
    rw [← hgk]
    simp [List.get_eq_getElem, List.getElem_append_left (by omega : k < l.length)]
  · have hj2 : j = l.length := by omega
    have hget : (l ++ [n]).get ⟨j, hj⟩ = n := by
      subst hj2
      simp [List.get_eq_getElem]
    rcases List.mem_iff_get.1 (hn inp (by rwa [hget] at hinp)) with ⟨⟨k, hk⟩, hgk⟩
    refine ⟨k, by simp; omega, by omega, ?_⟩
    rw [← hgk]
    simp [List.get_eq_getElem, List.getElem_append_left hk]

theorem topoSorted_closed {l : List Node} (hl : TopoSorted l) :
    ∀ x ∈ l, ∀ y ∈ x.inputs, y ∈ l := by
  intro x hx y hy
  rcases List.mem_iff_get.1 hx with ⟨⟨j, hj⟩, rfl⟩
  rcases hl j hj y hy with ⟨k, hk, _, hgk⟩
  rw [← hgk]
  exact List.get_mem l k hk

theorem closed_mem_subnodes {l : List Node}
    (hcl : ∀ x ∈ l, ∀ y ∈ x.inputs, y ∈ l) :
    ∀ n, n ∈ l → ∀ s ∈ subnodes n, s ∈ l := by
  intro n
  induction n using Node.strongInd with
  | h i o v sh f ins ih =>
    intro hn s hs
    simp only [subnodes, List.mem_cons, mem_subnodesList_iff] at hs
    rcases hs with rfl | ⟨x, hx, hsx⟩
    · exact hn
    · exact ih x hx (hcl _ hn x (by simpa [Node.inputs] using hx)) s hsx

theorem mem_ids {l : List Node} {i : Nat} :
    i ∈ l.map Node.nid ↔ ∃ x ∈ l, x.nid = i := by
  simp [List.mem_map]

theorem topoList_coh (g : Node) (hg : Coherent g) (ns : List Node)
    (ih : ∀ x ∈ ns, TopoCoh g x) : TopoCohL g ns := by
  induction ns with
  | nil =>
    intro vis ord h1 h2 h3 h4 h5 h6
    refine ⟨⟨[], by simp [topoList], by simp, by simp⟩, ?_, ?_, ?_, ?_, ?_, ?_, ?_⟩
    · simpa [topoList] using h1
    · simpa [topoList] using h2
    · simpa [topoList] using h3
    · simpa [topoList] using h4
    · simp [topoList]
    · intro i hi
      exact Or.inl (by simpa [topoList] using hi)
    · intro y hy
      exact absurd hy (List.not_mem_nil y)
  | cons x xs ihs =>
    intro vis ord h1 h2 h3 h4 h5 h6
    obtain ⟨vis1, ord1, hp1⟩ : ∃ v1 o1, topoVisit x (vis, ord) = (v1, o1) :=
      ⟨_, _, rfl⟩
    rcases ih x (List.mem_cons_self x xs) vis ord h1 h2 h3 h4
        (fun i hi hni s hs => h5 i hi hni x (List.mem_cons_self x xs) s hs)
        (h6 x (List.mem_cons_self x xs)) with
      ⟨⟨d1, hd1, hd1sub, hd1vis⟩, hg1, hn1, ho1, hs1, hv1, hnew1, hc1⟩
    rw [hp1] at hd1 hg1 hn1 ho1 hs1 hv1 hnew1 hc1
    dsimp only at hd1 hg1 hn1 ho1 hs1 hv1 hnew1 hc1
    have hstep : topoList (x :: xs) (vis, ord) = topoList xs (vis1, ord1) := by
      simp [topoList, hp1]
    have h5x : ∀ i ∈ vis1, i ∉ ord1.map Node.nid →
        ∀ y ∈ xs, ∀ s ∈ subnodes y, s.nid ≠ i := by
      intro i hi hni y hy s hs
      rcases hnew1 i hi with hiv | hio
      · have hnio : i ∉ ord.map Node.nid := by
          intro hmem
          exact hni (by rw [hd1, List.map_append]; exact List.mem_append_left _ hmem)
        exact h5 i hiv hnio y (List.mem_cons_of_mem x hy) s hs
      · exact absurd hio hni
    rcases ihs (fun z hz => ih z (List.mem_cons_of_mem x hz)) vis1 ord1 hg1 hn1
        ho1 hs1 h5x (fun y hy => h6 y (List.mem_cons_of_mem x hy)) with
      ⟨⟨d2, hd2, hd2sub, hd2vis⟩, hg2, hn2, ho2, hs2, hv2, hnew2, hc2⟩
    rw [hstep]
    refine ⟨⟨d1 ++ d2, by rw [hd2, hd1, List.append_assoc], ?_, ?_⟩,
      hg2, hn2, ho2, hs2, fun i hi => hv2 i (hv1 i hi), ?_, ?_⟩
    · intro z hz
      rcases List.mem_append.1 hz with hz | hz
      · exact ⟨x, List.mem_cons_self x xs, hd1sub z hz⟩
      · rcases hd2sub z hz with ⟨y, hy, hzy⟩
        exact ⟨y, List.mem_cons_of_mem x hy, hzy⟩
    · intro z hz
      rcases List.mem_append.1 hz with hz | hz
      · exact hd1vis z hz
      · intro hzv
        exact hd2vis z hz (hv1 _ hzv)
    · intro i hi
      rcases hnew2 i hi with hi1 | hi1
      · rcases hnew1 i hi1 with hi0 | hi0
        · exact Or.inl hi0
        · refine Or.inr ?_
          rw [hd2]
          rcases List.mem_map.1 hi0 with ⟨z, hz, hzi⟩
          exact List.mem_map.2 ⟨z, List.mem_append_left _ hz, hzi⟩
      · exact Or.inr hi1
    · intro y hy s hs
      rcases List.mem_cons.1 hy with rfl | hy
      · have : s ∈ ord1 := hc1 s hs
        rw [hd2]
        exact List.mem_append_left _ this
      · exact hc2 y hy s hs

theorem topoVisit_coh (g : Node) (hg : Coherent g) : ∀ n, TopoCoh g n := by
  intro n
  induction n using Node.strongInd with
  | h i o v sh f ins ih =>
    intro vis ord h1 h2 h3 h4 h5 h6
    by_cases hiv : i ∈ vis
    · have hvv : topoVisit (Node.mk i o v sh f ins) (vis, ord) = (vis, ord) := by
        simp [topoVisit, hiv]
      rw [hvv]
      have hmemord : Node.mk i o v sh f ins ∈ ord := by
        by_cases hio : i ∈ ord.map Node.nid
        · rcases mem_ids.1 hio with ⟨x, hx, hxi⟩
          have : x = Node.mk i o v sh f ins :=
            hg x (h1 x hx) _ h6 (by simpa [Node.nid] using hxi)
          rw [← this]
          exact hx
        · exact absurd rfl (h5 i hiv hio _ (self_mem_subnodes _))
      refine ⟨⟨[], by simp, by simp, by simp⟩, h1, h2, h3, h4, fun j hj => hj,
        fun j hj => Or.inl hj, ?_⟩
      exact closed_mem_subnodes (topoSorted_closed h4) _ hmemord
    · obtain ⟨vis2, ord2, hq⟩ : ∃ v2 o2, topoList ins (i :: vis, ord) = (v2, o2) :=
        ⟨_, _, rfl⟩
      have hvv : topoVisit (Node.mk i o v sh f ins) (vis, ord) =
          (vis2, ord2 ++ [Node.mk i o v sh f ins]) := by
        simp [topoVisit, hiv, hq]
      have hins_sub : ∀ y ∈ ins, y ∈ subnodes g := fun y hy =>
        subnodes_trans (self_mem_subnodes y)
          (subnodes_trans (input_mem_subnodes (by simpa [Node.inputs] using hy)) h6)
      have h5l : ∀ j ∈ (i :: vis), j ∉ ord.map Node.nid →
          ∀ y ∈ ins, ∀ s ∈ subnodes y, s.nid ≠ j := by
        intro j hj hjo y hy s hs
        rcases List.mem_cons.1 hj with hji | hj
        · intro hsj
          rw [hji] at hsj
          have hsg : s ∈ subnodes g :=
            subnodes_trans hs (hins_sub y hy)
          have hseq : s = Node.mk i o v sh f ins :=
            hg s hsg _ h6 (by simpa using hsj)
          exact not_subnode_of_input (x := y) (by simpa [Node.inputs] using hy) hs
            hseq
        · exact h5 j hj hjo s
            (subnodes_trans hs (input_mem_subnodes (by simpa [Node.inputs] using hy)))
      rcases topoList_coh g hg ins ih (i :: vis) ord h1 h2
          (fun x hx => List.mem_cons_of_mem i (h3 x hx)) h4 h5l hins_sub with
        ⟨⟨d2, hd2, hd2sub, hd2vis⟩, hg2, hn2, ho2, hs2, hv2, hnew2, hc2⟩
      rw [hq] at hd2 hg2 hn2 ho2 hs2 hv2 hnew2 hc2
      dsimp only at hd2 hg2 hn2 ho2 hs2 hv2 hnew2 hc2
      rw [hvv]
      have hnin_ord : i ∉ ord.map Node.nid := by
        intro hmem
        rcases mem_ids.1 hmem with ⟨x, hx, hxi⟩
        exact hiv (hxi ▸ h3 x hx)
      have hnin_d2 : i ∉ d2.map Node.nid := by
        intro hmem
        rcases mem_ids.1 hmem with ⟨x, hx, hxi⟩
        exact hd2vis x hx (by rw [hxi]; exact List.mem_cons_self i vis)
      have hnin_ord2 : i ∉ ord2.map Node.nid := by
        rw [hd2, List.map_append]
        intro hmem
        rcases List.mem_append.1 hmem with hmem | hmem
        · exact hnin_ord hmem
        · exact hnin_d2 hmem
      have hiv2 : i ∈ vis2 := hv2 i (List.mem_cons_self i vis)
      refine ⟨⟨d2 ++ [Node.mk i o v sh f ins],
        by rw [hd2, List.append_assoc], ?_, ?_⟩, ?_, ?_, ?_, ?_,
        fun j hj => hv2 j (List.mem_cons_of_mem i hj), ?_, ?_⟩
      · intro z hz
        rcases List.mem_append.1 hz with hz | hz
        · rcases hd2sub z hz with ⟨y, hy, hzy⟩
          exact subnodes_trans hzy (input_mem_subnodes (by simpa [Node.inputs] using hy))
        · have : z = Node.mk i o v sh f ins := by simpa using hz
          rw [this]
          exact self_mem_subnodes _
      · intro z hz
        rcases List.mem_append.1 hz with hz | hz
        · intro hzv
          exact hd2vis z hz (List.mem_cons_of_mem i hzv)
        · have : z = Node.mk i o v sh f ins := by simpa using hz
          rw [this]
          simpa [Node.nid] using hiv
      · intro x hx
        rcases List.mem_append.1 hx with hx | hx
        · exact hg2 x hx
        · have : x = Node.mk i o v sh f ins := by simpa using hx
          rw [this]
          exact h6
      · rw [List.map_append]
        refine List.Nodup.append hn2 (by simp) ?_
        intro a ha hb
        have hab : a = i := by simpa [Node.nid] using hb
        rw [hab] at ha
        exact hnin_ord2 ha
      · intro x hx
        rcases List.mem_append.1 hx with hx | hx
        · exact ho2 x hx
        · have : x = Node.mk i o v sh f ins := by simpa using hx
          rw [this]
          simpa [Node.nid] using hiv2
      · refine topoSorted_append hs2 ?_
        intro y hy
        exact hc2 y (by simpa [Node.inputs] using hy) y (self_mem_subnodes y)
      · intro j hj
        rcases hnew2 j hj with hj1 | hj1
        · rcases List.mem_cons.1 hj1 with rfl | hj1
          · exact Or.inr (by simp [Node.nid])
          · exact Or.inl hj1
        · exact Or.inr (by simp [hj1])
      · intro s hs
        simp only [subnodes, List.mem_cons, mem_subnodesList_iff] at hs
        rcases hs with rfl | ⟨y, hy, hsy⟩
        · exact List.mem_append_right _ (List.mem_cons_self _ [])
        · exact List.mem_append_left _ (hc2 y hy s hsy)

/-- `topological_sort` under id coherence: the order is exactly the set
of reachable nodes, without duplicate ids, each node after its inputs. -/
theorem topological_sort_correct {g : Node} (hg : Coherent g) :
    (∀ s, s ∈ subnodes g ↔ s ∈ topological_sort g) ∧
    ((topological_sort g).map Node.nid).Nodup ∧
    TopoSorted (topological_sort g) := by
  rcases topoVisit_coh g hg g [] []
      (fun x hx => absurd hx (List.not_mem_nil x)) (by simp)
      (fun x hx => absurd hx (List.not_mem_nil x)) topoSorted_nil
      (fun i hi => absurd hi (List.not_mem_nil i)) (self_mem_subnodes g) with
    ⟨_, hsub, hnodup, _, hsorted, _, _, hcomp⟩
  exact ⟨fun s => ⟨fun hs => hcomp s hs, fun hs => hsub s hs⟩, hnodup, hsorted⟩

/-! ## compute_gradients: a second call reproduces the first -/

theorem reset_fold_spec (l : List Node) :
    ∀ (γ : GradMap) j,
      (l.foldl (fun γ' n => gset γ' n.nid 0) γ) j =
        if j ∈ l.map Node.nid then 0 else γ j := by
  induction l with
  | nil => intro γ j; simp
  | cons a as ih =>
    intro γ j
    simp only [List.foldl_cons, ih, List.map_cons, List.mem_cons]
    by_cases hja : j = a.nid
    · by_cases hjl : j ∈ as.map Node.nid <;> simp [hja, hjl, gset]
    · by_cases hjl : j ∈ as.map Node.nid <;> simp [hja, hjl, gset]

theorem addFold_spec (I : List Nat) (n0 : Nat) (h0 : n0 ∈ I) :
    ∀ ins : List Node, (∀ y ∈ ins, y.nid ∈ I) →
    ∀ γ γ' : GradMap, AgreeOn I γ γ' →
      AgreeOn I
        (ins.foldl (fun γc inp => gset γc inp.nid (γc inp.nid + γc n0)) γ)
        (ins.foldl (fun γc inp => gset γc inp.nid (γc inp.nid + γc n0)) γ') ∧
      (∀ j, j ∉ I →
        (ins.foldl (fun γc inp => gset γc inp.nid (γc inp.nid + γc n0)) γ) j =
          γ j ∧
        (ins.foldl (fun γc inp => gset γc inp.nid (γc inp.nid + γc n0)) γ') j =
          γ' j) := by
  intro ins
  induction ins with
  | nil => intro _ γ γ' hag; exact ⟨hag, fun j _ => ⟨rfl, rfl⟩⟩
  | cons a as ih =>
    intro hins γ γ' hag
    have ha : a.nid ∈ I := hins a (List.mem_cons_self a as)
    have hstep : AgreeOn I (gset γ a.nid (γ a.nid + γ n0))
        (gset γ' a.nid (γ' a.nid + γ' n0)) := by
      intro j hj
      simp only [gset]
      by_cases hja : j = a.nid
      · simp [hja, hag a.nid ha, hag n0 h0]
      · simp [hja, hag j hj]
    rcases ih (fun y hy => hins y (List.mem_cons_of_mem a hy)) _ _ hstep with
      ⟨hag2, hout2⟩
    refine ⟨hag2, ?_⟩
    intro j hj
    rcases hout2 j hj with ⟨h1, h2⟩
    simp only [List.foldl_cons] at h1 h2 ⊢
    refine ⟨?_, ?_⟩
    · rw [h1]
      simp only [gset]
      rw [if_neg (show j ≠ a.nid from fun hja => hj (by rw [hja]; exact ha))]
    · rw [h2]
      simp only [gset]
      rw [if_neg (show j ≠ a.nid from fun hja => hj (by rw [hja]; exact ha))]

theorem exc_cases (r : Except Err ℚ) :
    (∃ w, r = .ok w) ∨ (∃ er, r = .error er) := by
  cases r with
  | ok w => exact Or.inl ⟨w, rfl⟩
  | error er => exact Or.inr ⟨er, rfl⟩

theorem backStep_error_indep {n : Node} {γ γ' : GradMap} {e : Err}
    (h : backStep γ n = .error e) : backStep γ' n = .error e := by
  by_cases ha : n.op = "add"
  · simp [backStep, ha] at h
  · by_cases hm : n.op = "mul"
    · simp only [backStep, if_neg ha, if_pos hm] at h ⊢
      cases hins : n.inputs with
      | nil => rw [hins] at h; exact h
      | cons x xs =>
        cases xs with
        | nil => rw [hins] at h; exact h
        | cons y ys =>
          cases ys with
          | nil =>
            rw [hins] at h
            dsimp only at h ⊢
            rcases exc_cases (valOf x) with ⟨wa, hva⟩ | ⟨e1, hva⟩
            · rw [hva] at h ⊢
              dsimp only at h ⊢
              rcases exc_cases (valOf y) with ⟨wb, hvb⟩ | ⟨e2, hvb⟩
              · rw [hvb] at h
                dsimp only at h
                cases h
              · rw [hvb] at h ⊢
                dsimp only at h ⊢
                exact h
            · rw [hva] at h ⊢
              dsimp only at h ⊢
              exact h
          | cons z zs => rw [hins] at h; exact h
    · by_cases hd : n.op = "div"
      · simp only [backStep, if_neg ha, if_neg hm, if_pos hd] at h ⊢
        cases hins : n.inputs with
        | nil => rw [hins] at h; exact h
        | cons x xs =>
          cases xs with
          | nil => rw [hins] at h; exact h
          | cons y ys =>
            cases ys with
            | nil =>
              rw [hins] at h
              dsimp only at h ⊢
              rcases exc_cases (valOf x) with ⟨wa, hva⟩ | ⟨e1, hva⟩
              · rw [hva] at h ⊢
                dsimp only at h ⊢
                rcases exc_cases (valOf y) with ⟨wb, hvb⟩ | ⟨e2, hvb⟩
                · rw [hvb] at h
                  dsimp only at h
                  cases h
                · rw [hvb] at h ⊢
                  dsimp only at h ⊢
                  exact h
              · rw [hva] at h ⊢
                dsimp only at h ⊢
                exact h
            | cons z zs => rw [hins] at h; exact h
      · simp [backStep, if_neg ha, if_neg hm, if_neg hd] at h

theorem backStep_ok_spec {I : List Nat} {n : Node} (hn : n.nid ∈ I)
    (hins : ∀ y ∈ n.inputs, y.nid ∈ I) {γ γ' : GradMap}
    (hag : AgreeOn I γ γ') {δ : GradMap} (h : backStep γ n = .ok δ) :
    ∃ δ', backStep γ' n = .ok δ' ∧ AgreeOn I δ δ' ∧
      (∀ j, j ∉ I → δ j = γ j ∧ δ' j = γ' j) := by
  by_cases ha : n.op = "add"
  · simp only [backStep, if_pos ha] at h ⊢
    cases h
    rcases addFold_spec I n.nid hn n.inputs hins γ γ' hag with ⟨hag2, hout2⟩
    exact ⟨_, rfl, hag2, hout2⟩
  · by_cases hm : n.op = "mul"
    · simp only [backStep, if_neg ha, if_pos hm] at h ⊢
      cases hins2 : n.inputs with
      | nil => rw [hins2] at h; cases h
      | cons x xs =>
        cases xs with
        | nil => rw [hins2] at h; cases h
        | cons y ys =>
          cases ys with
          | nil =>
            rw [hins2] at h
            dsimp only at h ⊢
            have hx : x.nid ∈ I := hins x (by rw [hins2]; simp)
            have hy : y.nid ∈ I := hins y (by rw [hins2]; simp)
            rcases exc_cases (valOf x) with ⟨wa, hva⟩ | ⟨e1, hva⟩
            · rw [hva] at h ⊢
              dsimp only at h ⊢
              rcases exc_cases (valOf y) with ⟨wb, hvb⟩ | ⟨e2, hvb⟩
              · rw [hvb] at h ⊢
                dsimp only at h ⊢
                cases h
                refine ⟨_, rfl, ?_, ?_⟩
                · intro j hj
                  simp only [gset]
                  by_cases hjy : j = y.nid
                  · by_cases hyx : y.nid = x.nid <;>
                      by_cases hyn : y.nid = n.nid <;>
                      by_cases hxn : x.nid = n.nid <;>
                      simp [hjy, hyx, hyn, hxn, hag x.nid hx, hag y.nid hy,
                        hag n.nid hn]
                  · by_cases hjx : j = x.nid
                    · have hxy : x.nid ≠ y.nid := fun hh => hjy (hjx.trans hh)
                      simp [hjy, hjx, hxy, hag x.nid hx, hag n.nid hn]
                    · simp [hjy, hjx, hag j hj]
                · intro j hj
                  have hjx : j ≠ x.nid := fun hh => hj (by rw [hh]; exact hx)
                  have hjy : j ≠ y.nid := fun hh => hj (by rw [hh]; exact hy)
                  simp [gset, hjx, hjy]
              · rw [hvb] at h
                dsimp only at h
                cases h
            · rw [hva] at h
              dsimp only at h
              cases h
          | cons z zs => rw [hins2] at h; cases h
    · by_cases hd : n.op = "div"
      · simp only [backStep, if_neg ha, if_neg hm, if_pos hd] at h ⊢
        cases hins2 : n.inputs with
        | nil => rw [hins2] at h; cases h
        | cons x xs =>
          cases xs with
          | nil => rw [hins2] at h; cases h
          | cons y ys =>
            cases ys with
            | nil =>
              rw [hins2] at h
              dsimp only at h ⊢
              have hx : x.nid ∈ I := hins x (by rw [hins2]; simp)
              have hy : y.nid ∈ I := hins y (by rw [hins2]; simp)
              rcases exc_cases (valOf x) with ⟨wa, hva⟩ | ⟨e1, hva⟩
              · rw [hva] at h ⊢
                dsimp only at h ⊢
                rcases exc_cases (valOf y) with ⟨wb, hvb⟩ | ⟨e2, hvb⟩
                · rw [hvb] at h ⊢
                  dsimp only at h ⊢
                  cases h
                  refine ⟨_, rfl, ?_, ?_⟩
                  · intro j hj
                    simp only [gset]
                    by_cases hjy : j = y.nid
                    · by_cases hyx : y.nid = x.nid <;>
                        by_cases hyn : y.nid = n.nid <;>
                        by_cases hxn : x.nid = n.nid <;>
                        simp [hjy, hyx, hyn, hxn, hag x.nid hx, hag y.nid hy,
                          hag n.nid hn]
                    · by_cases hjx : j = x.nid
                      · have hxy : x.nid ≠ y.nid := fun hh => hjy (hjx.trans hh)
                        simp [hjy, hjx, hxy, hag x.nid hx, hag n.nid hn]
                      · simp [hjy, hjx, hag j hj]
                  · intro j hj
                    have hjx : j ≠ x.nid := fun hh => hj (by rw [hh]; exact hx)
                    have hjy : j ≠ y.nid := fun hh => hj (by rw [hh]; exact hy)
                    simp [gset, hjx, hjy]
                · rw [hvb] at h
                  dsimp only at h
                  cases h
              · rw [hva] at h
                dsimp only at h
                cases h
            | cons z zs => rw [hins2] at h; cases h
      · simp only [backStep, if_neg ha, if_neg hm, if_neg hd] at h ⊢
        cases h
        exact ⟨_, rfl, hag, fun j _ => ⟨rfl, rfl⟩⟩

theorem backList_spec (I : List Nat) :
    ∀ l : List Node, (∀ n ∈ l, n.nid ∈ I ∧ ∀ y ∈ n.inputs, y.nid ∈ I) →
    ∀ γ γ' : GradMap, AgreeOn I γ γ' →
      (backList l γ).2 = (backList l γ').2 ∧
      AgreeOn I (backList l γ).1 (backList l γ').1 ∧
      (∀ j, j ∉ I → (backList l γ).1 j = γ j ∧ (backList l γ').1 j = γ' j) := by
  intro l
  induction l with
  | nil => intro _ γ γ' hag; exact ⟨rfl, hag, fun j _ => ⟨rfl, rfl⟩⟩
  | cons a as ih =>
    intro hl γ γ' hag
    rcases hl a (List.mem_cons_self a as) with ⟨han, hain⟩
    simp only [backList]
    cases hsa : backStep γ a with
    | error e =>
      rw [show backStep γ' a = Except.error e from backStep_error_indep hsa]
      exact ⟨rfl, hag, fun j _ => ⟨rfl, rfl⟩⟩
    | ok δ =>
      rcases backStep_ok_spec han hain hag hsa with ⟨δ', hδ', hagδ, houtδ⟩
      rw [hδ']
      rcases ih (fun n hn => hl n (List.mem_cons_of_mem a hn)) δ δ' hagδ with
        ⟨he2, hag2, hout2⟩
      refine ⟨he2, hag2, ?_⟩
      intro j hj
      rcases hout2 j hj with ⟨h1, h2⟩
      rcases houtδ j hj with ⟨h3, h4⟩
      exact ⟨by rw [h1, h3], by rw [h2, h4]⟩

theorem compute_gradients_idem (root : Node) (seed : ℚ) (γ : GradMap) :
    (compute_gradients root seed (compute_gradients root seed γ).1).1 =
      (compute_gradients root seed γ).1 := by
  have hclosed := topological_sort_closed root
  have hlprop : ∀ n ∈ (topological_sort root).reverse,
      n.nid ∈ (topological_sort root).map Node.nid ∧
      ∀ y ∈ n.inputs, y.nid ∈ (topological_sort root).map Node.nid := by
    intro n hn
    have hn2 : n ∈ topological_sort root := List.mem_reverse.1 hn
    exact ⟨List.mem_map.2 ⟨n, hn2, rfl⟩, fun y hy => hclosed.2 n hn2 y hy⟩
  have hreset : ∀ δ : GradMap,
      ((topological_sort root).foldl (fun g n => gset g n.nid 0) δ) =
      (fun j => if j ∈ (topological_sort root).map Node.nid then 0 else δ j) := by
    intro δ
    funext j
    rw [reset_fold_spec]
  have hexp : ∀ δ : GradMap, (compute_gradients root seed δ).1 =
      (backList (topological_sort root).reverse
        (gset (fun j => if j ∈ (topological_sort root).map Node.nid then 0
          else δ j) root.nid seed)).1 := by
    intro δ
    simp only [compute_gradients]
    rw [hreset δ]
  have hseedAg : AgreeOn ((topological_sort root).map Node.nid)
      (gset (fun j => if j ∈ (topological_sort root).map Node.nid then 0
        else γ j) root.nid seed)
      (gset (fun j => if j ∈ (topological_sort root).map Node.nid then 0
        else (compute_gradients root seed γ).1 j) root.nid seed) := by
    intro j hj
    simp only [gset]
    by_cases hjr : j = root.nid <;> simp [hjr, hj]
  rcases backList_spec ((topological_sort root).map Node.nid)
      (topological_sort root).reverse hlprop _ _ hseedAg with ⟨_, hagF, houtF⟩
  funext j
  rw [hexp ((compute_gradients root seed γ).1)]
  by_cases hj : j ∈ (topological_sort root).map Node.nid
  · have h1 := (hagF j hj).symm
    rw [← hexp γ] at h1
    rw [h1, hexp γ]
  · rcases houtF j hj with ⟨_, h2⟩
    rw [h2]
    simp only [gset]
    rw [if_neg (fun hjr => hj (by rw [hjr]; exact hclosed.1)), if_neg hj]

/-! ## The divide gradient rule and the pattern table -/

theorem backStep_div_rule (γ : GradMap) (i : Nat) (v : Option ℚ)
    (sh : Option (Option (List Nat))) (f : List String) (a b : Node)
    (va vb : ℚ) (hva : valOf a = .ok va) (hvb : valOf b = .ok vb) :
    backStep γ (.mk i "div" v sh f [a, b]) =
      .ok (gset (gset γ a.nid (γ a.nid + γ i / vb)) b.nid
        ((gset γ a.nid (γ a.nid + γ i / vb)) b.nid +
          (gset γ a.nid (γ a.nid + γ i / vb)) i * (-va / (vb * vb)))) := by
  simp [backStep, Node.op, Node.inputs, Node.nid, hva, hvb]

theorem patVisit_const (j : Nat) (w : ℚ) (c : Nat) :
    patVisit (constant j w) c = .ok (constant j w, c) := by
  simp [patVisit, patList, constant, firstPattern, patterns, patMatchZero,
    patMatchOne, Node.op]

theorem patterns_mul_zero (x : Node) (c i j : Nat)
    (hx : patVisit x c = .ok (x, c)) :
    apply_patterns (.mk i "mul" none none [] [x, constant j 0]) c =
      .ok (constant c 0, c + 1) := by
  have hlist : patList [x, constant j 0] c = .ok ([x, constant j 0], c) := by
    simp [patList, hx, patVisit_const]
  have hm0 : patMatchZero (.mk i "mul" none none [] [x, constant j 0]) = true := by
    simp [patMatchZero, Node.op, Node.inputs, constant, Node.value]
  simp only [apply_patterns, patVisit, hlist]
  rw [firstPattern_eq, if_pos hm0]
  rfl

theorem patterns_mul_one (x : Node) (c i j : Nat)
    (hx : patVisit x c = .ok (x, c)) (hx0 : x.value ≠ some 0)
    (hx1 : x.value ≠ some 1) :
    apply_patterns (.mk i "mul" none none [] [x, constant j 1]) c =
      .ok (x, c) := by
  have hlist : patList [x, constant j 1] c = .ok ([x, constant j 1], c) := by
    simp [patList, hx, patVisit_const]
  have hxz : (fun u => match u.value with
      | some v => decide (v = (0 : ℚ))
      | none => false) x = false := by
    cases hv : x.value with
    | none => simp [hv]
    | some v =>
      simp only [hv, decide_eq_false_iff_not]
      intro hv0
      exact hx0 (by rw [hv, hv0])
  have hm0 : patMatchZero (.mk i "mul" none none [] [x, constant j 1]) = false := by
    simp only [patMatchZero, Node.op, Node.inputs, List.any_cons, List.any_nil]
    simp only [hxz]
    simp [constant, Node.value]
  have hm1 : patMatchOne (.mk i "mul" none none [] [x, constant j 1]) = true := by
    simp [patMatchOne, Node.op, Node.inputs, constant, Node.value]
  simp only [apply_patterns, patVisit, hlist]
  rw [firstPattern_eq, if_neg (by simp [hm0]), if_pos hm1]
  simp only [patReplaceOne, Node.inputs]
  rw [List.find?_cons_of_pos _ (by simp [hx1])]

theorem ffc_gFuse : find_fusion_candidates gFuse = [[mulXc, gFuse]] := by
  simp [find_fusion_candidates, gFuse, mulXc, addN, mulN, constant,
    fusionFind, fusionFindList, fusionWalk, can_fuse, metalFusionPatterns,
    Node.op, Node.value, Node.inputs, Node.nid, Node.mshape]

theorem fusion_gFuse : Fusion.optimize gFuse 100 = (fusedFma, 101) := by
  rw [Fusion.optimize, ffc_gFuse]
  simp [create_fused_op, metalFusionPatterns, replaceNode, replaceList,
    lookupNat, gFuse, mulXc, fusedFma, addN, mulN, constant,
    Node.op, Node.value, Node.inputs, Node.nid, Node.mshape, Node.fusedOps]

/-! ## CSE: key-based merging characterization -/

theorem cseList_mono (ns : List Node)
    (ih : ∀ x ∈ ns, ∀ m k r, lookupKey k m = some r →
      lookupKey k (cseVisit x m).2 = some r) :
    ∀ m k r, lookupKey k m = some r → lookupKey k (cseList ns m).2 = some r := by
  induction ns with
  | nil => intro m k r h; simpa [cseList] using h
  | cons a as ihs =>
    intro m k r h
    have h1 := ih a (List.mem_cons_self a as) m k r h
    have h2 := ihs (fun x hx => ih x (List.mem_cons_of_mem a hx))
      (cseVisit a m).2 k r h1
    simpa [cseList] using h2

theorem cseVisit_mono : ∀ n : Node, ∀ m k r, lookupKey k m = some r →
    lookupKey k (cseVisit n m).2 = some r := by
  intro n
  induction n using Node.strongInd with
  | h i o v sh f ins ih =>
    intro m k r h
    by_cases hemp : ins.isEmpty = true
    · simpa [cseVisit, hemp] using h
    · obtain ⟨us, m1, hus⟩ : ∃ us m1, cseList ins m = (us, m1) :=
        ⟨(cseList ins m).1, (cseList ins m).2, rfl⟩
    
      have h1 : lookupKey k m1 = some r := by
        have := cseList_mono ins ih m k r h
        rw [hus] at this
        exact this
      cases hlk : lookupKey (o, us.map Node.nid, v) m1 with
      | some nf =>
        simp only [cseVisit, if_neg hemp, hus, hlk]
        exact h1
      | none =>
        simp only [cseVisit, if_neg hemp, hus, hlk]
        have hkne : k ≠ (o, us.map Node.nid, v) := by
          intro hkk
          rw [hkk] at h1
          rw [h1] at hlk
          cases hlk
        simp only [lookupKey, if_neg hkne]
        exact h1

theorem cseList_keyFaithful (ns : List Node)
    (ih : ∀ x ∈ ns, ∀ m, KeyFaithful m → KeyFaithful (cseVisit x m).2) :
    ∀ m, KeyFaithful m → KeyFaithful (cseList ns m).2 := by
  induction ns with
  | nil => intro m h; simpa [cseList] using h
  | cons a as ihs =>
    intro m h
    have h1 := ih a (List.mem_cons_self a as) m h
    have h2 := ihs (fun x hx => ih x (List.mem_cons_of_mem a hx))
      (cseVisit a m).2 h1
    simpa [cseList] using h2

theorem cseVisit_keyFaithful : ∀ n : Node, ∀ m, KeyFaithful m →
    KeyFaithful (cseVisit n m).2 := by
  intro n
  induction n using Node.strongInd with
  | h i o v sh f ins ih =>
    intro m hm
    by_cases hemp : ins.isEmpty = true
    · simpa [cseVisit, hemp] using hm
    · obtain ⟨us, m1, hus⟩ : ∃ us m1, cseList ins m = (us, m1) :=
        ⟨(cseList ins m).1, (cseList ins m).2, rfl⟩
      have hm1 : KeyFaithful m1 := by
        have := cseList_keyFaithful ins ih m hm
        rw [hus] at this
        exact this
      cases hlk : lookupKey (o, us.map Node.nid, v) m1 with
      | some nf =>
        simp only [cseVisit, if_neg hemp, hus, hlk]
        exact hm1
      | none =>
        simp only [cseVisit, if_neg hemp, hus, hlk]
        intro k r hkr
        by_cases hkk : k = (o, us.map Node.nid, v)
        · subst hkk
          simp only [lookupKey, if_pos rfl] at hkr
          cases hkr
          exact ⟨rfl, rfl, rfl⟩
        · simp only [lookupKey, if_neg hkk] at hkr
          exact hm1 k r hkr

theorem cseVisit_resolves_aux (i : Nat) (o : String) (v : Option ℚ)
    (sh : Option (Option (List Nat))) (f : List String) (ins : List Node)
    (m : List (CseKey × Node)) (hm : KeyFaithful m) (hne : ins ≠ []) :
    (cseVisit (.mk i o v sh f ins) m).1.op = o ∧
    (cseVisit (.mk i o v sh f ins) m).1.value = v ∧
    (cseVisit (.mk i o v sh f ins) m).1.inputs.map Node.nid =
      (cseList ins m).1.map Node.nid ∧
    lookupKey (o, (cseList ins m).1.map Node.nid, v)
      (cseVisit (.mk i o v sh f ins) m).2 =
      some (cseVisit (.mk i o v sh f ins) m).1 := by
  have hemp : ¬ ins.isEmpty = true := by
    simpa [List.isEmpty_iff] using hne
  obtain ⟨us, m1, hus⟩ : ∃ us m1, cseList ins m = (us, m1) :=
    ⟨(cseList ins m).1, (cseList ins m).2, rfl⟩
  have hm1 : KeyFaithful m1 := by
    have := cseList_keyFaithful ins (fun x _ => cseVisit_keyFaithful x) m hm
    rw [hus] at this
    exact this
  cases hlk : lookupKey (o, us.map Node.nid, v) m1 with
  | some nf =>
    rcases hm1 _ _ hlk with ⟨h1, h2, h3⟩
    simp only [cseVisit, if_neg hemp, hus, hlk]
    exact ⟨h1, h3, h2, trivial⟩
  | none =>
    simp only [cseVisit, if_neg hemp, hus, hlk]
    refine ⟨rfl, rfl, rfl, ?_⟩
    simp [lookupKey, Node.op, Node.inputs, Node.value]

theorem cseVisit_resolves (n : Node) (m : List (CseKey × Node))
    (hm : KeyFaithful m) (hne : n.inputs ≠ []) :
    (cseVisit n m).1.op = n.op ∧ (cseVisit n m).1.value = n.value ∧
    (cseVisit n m).1.inputs.map Node.nid =
      (cseList n.inputs m).1.map Node.nid ∧
    lookupKey (cseKeyOf n m) (cseVisit n m).2 = some (cseVisit n m).1 := by
  cases n with
  | mk i o v sh f ins => exact cseVisit_resolves_aux i o v sh f ins m hm hne

theorem cseVisit_merge_iff (t1 t2 : Node) (m : List (CseKey × Node))
    (hm : KeyFaithful m) (h1 : t1.inputs ≠ []) (h2 : t2.inputs ≠ []) :
    (cseVisit t2 (cseVisit t1 m).2).1 = (cseVisit t1 m).1 ↔
      cseKeyOf t2 (cseVisit t1 m).2 = cseKeyOf t1 m := by
  have hm1 : KeyFaithful (cseVisit t1 m).2 := cseVisit_keyFaithful t1 m hm
  rcases cseVisit_resolves t1 m hm h1 with ⟨ha1, hb1, hc1, hd1⟩
  rcases cseVisit_resolves t2 (cseVisit t1 m).2 hm1 h2 with ⟨ha2, hb2, hc2, hd2⟩
  constructor
  · intro heq
    simp only [cseKeyOf]
    rw [← ha2, ← hb2, ← hc2, heq, ha1, hb1, hc1]
  · intro hkeq
    cases t2 with
    | mk i2 o2 v2 sh2 f2 ins2 =>
      have hne2 : ins2 ≠ [] := h2
      have hemp2 : ¬ ins2.isEmpty = true := by
        simpa [List.isEmpty_iff] using hne2
      obtain ⟨us2, m2, hus2⟩ : ∃ us2 m2,
          cseList ins2 (cseVisit t1 m).2 = (us2, m2) :=
        ⟨(cseList ins2 (cseVisit t1 m).2).1,
         (cseList ins2 (cseVisit t1 m).2).2, rfl⟩
      have hkey2 : cseKeyOf (Node.mk i2 o2 v2 sh2 f2 ins2) (cseVisit t1 m).2 =
          (o2, us2.map Node.nid, v2) := by
        simp [cseKeyOf, Node.op, Node.inputs, Node.value, hus2]
      have hmono : lookupKey (cseKeyOf t1 m) m2 = some (cseVisit t1 m).1 := by
        have := cseList_mono ins2 (fun x _ => cseVisit_mono x)
          (cseVisit t1 m).2 (cseKeyOf t1 m) (cseVisit t1 m).1 hd1
        rw [hus2] at this
        exact this
      have hhit : lookupKey (o2, us2.map Node.nid, v2) m2 =
          some (cseVisit t1 m).1 := by
        rw [← hkey2, hkeq]
        exact hmono
      simp only [cseVisit, if_neg hemp2, hus2, hhit]


/-! ## Claims -/

/-- C1 (counterexample): the fusion pass does not preserve the evaluated
result.  The graph `add(mul(constant(2), constant(3)), constant(4))`
evaluates to 10, but the graph fusion returns is a single `"fma"` node,
which `evaluate` rejects with `Unknown operation: fma`. -/
theorem claim_c1_counterexample :
    evaluate gFuse = .ok 10 ∧
    evaluate (Fusion.optimize gFuse 100).1 = .error (.unknownOp "fma") ∧
    evaluate (Fusion.optimize gFuse 100).1 ≠ evaluate gFuse := by
  have h1 : evaluate gFuse = .ok 10 := by
    simp [gFuse, addN, mulN, constant, evaluate, evaluateList, applyOp]
    norm_num
  have h2 : evaluate (Fusion.optimize gFuse 100).1 = .error (.unknownOp "fma") := by
    rw [fusion_gFuse]
    simp [fusedFma, constant, evaluate, evaluateList, applyOp]
  exact ⟨h1, h2, by rw [h1, h2]; intro h; cases h⟩

/-- C1 (amended): constant folding and dead-code elimination preserve the
evaluated result of every well-formed graph, CSE preserves it on every
id-coherent graph, and the pattern pass preserves every successful
evaluation when it returns a graph; fusion is excepted, since the fused
tags it introduces are not recognized by the evaluator. -/
theorem claim_c1_passes_preserve :
    (∀ g c, WFg g → evaluate (ConstantFolding.optimize g c).1 = evaluate g) ∧
    (∀ g, Coherent g → evaluate (Cse.optimize g) = evaluate g) ∧
    (∀ g, evaluate (DeadCode.optimize g) = evaluate g) ∧
    (∀ g c g' c' v, WFg g → apply_patterns g c = .ok (g', c') →
      evaluate g = .ok v → evaluate g' = .ok v) := by
  refine ⟨?_, ?_, fun g => rfl, ?_⟩
  · intro g c hwf
    exact (cfold_spec g hwf c).1
  · intro g hg
    exact cse_preserves hg
  · intro g c g' c' v hwf hp hv
    exact patterns_preserve g hwf c g' c' hp v hv

/-- C1 (witness): the preservation statements instantiated on concrete
graphs, each hypothesis discharged. -/
theorem claim_c1_passes_preserve_witness :
    evaluate (ConstantFolding.optimize gFuse 50).1 = evaluate gFuse ∧
    evaluate (Cse.optimize gTwin) = evaluate gTwin ∧
    evaluate (constant 100 0) = .ok 0 := by
  refine ⟨claim_c1_passes_preserve.1 gFuse 50 (by decide),
    claim_c1_passes_preserve.2.1 gTwin
      (coherent_of_nodup (by decide)), ?_⟩
  refine claim_c1_passes_preserve.2.2.2 gMulZeroOne 100 (constant 100 0) 101 0
    (by decide) ?_ ?_
  · simp [apply_patterns, gMulZeroOne, patVisit, patList, firstPattern,
      patterns, patMatchZero, patMatchOne, patReplaceZero, constant,
      Node.op, Node.value, Node.inputs, Node.nid, List.find?]
  · simp [gMulZeroOne, constant, evaluate, evaluateList, applyOp]

/-- C2 (counterexample): the all-constant graph
`div(constant(1), constant(2))` is returned by `compile` unchanged: the
folding pass folds only `add` and `mul`, so the result is a `"div"`
node, not a single constant. -/
theorem claim_c2_counterexample :
    Compiler.compile gDiv 100 = .ok (gDiv, 100) ∧ gDiv.op = "div" := by
  refine ⟨?_, rfl⟩
  simp [Compiler.compile, gDiv, divN, constant, ConstantFolding.optimize,
    cfoldVisit, cfoldList, allConst, seqOpt, Cse.optimize, cseVisit, cseList,
    lookupKey, DeadCode.optimize, dceMark, dceMarkList, Fusion.optimize,
    find_fusion_candidates, fusionFind, fusionFindList, fusionWalk, can_fuse,
    metalFusionPatterns, apply_patterns, patVisit, patList, firstPattern,
    patterns, patMatchZero, patMatchOne, patReplaceZero, patReplaceOne,
    List.find?, Node.op, Node.value, Node.inputs, Node.nid, Node.mshape]

/-- C2 (amended): for every graph built purely from constants combined by
the `add` and `mul` constructors, `compile` returns a single constant
node whose value equals the evaluation of the unoptimized graph
(`div`-built graphs are excepted: `div` is not folded). -/
theorem claim_c2_compile_constant (g : Node) (c : Nat) (hp : PureAddMul g) :
    ∃ r c' w, Compiler.compile g c = .ok (r, c') ∧ r.op = "const" ∧
      r.inputs = [] ∧ r.value = some w ∧ evaluate r = .ok w ∧
      evaluate g = .ok w :=
  compile_pure hp c

/-- C2 (witness): `mul(add(constant(2), constant(3)), constant(4))`
compiles to a single constant. -/
theorem claim_c2_compile_constant_witness :
    ∃ r c' w, Compiler.compile gPure 100 = .ok (r, c') ∧ r.op = "const" ∧
      r.inputs = [] ∧ r.value = some w ∧ evaluate r = .ok w ∧
      evaluate gPure = .ok w :=
  claim_c2_compile_constant gPure 100 (by decide)

/-- C3: the reverse step for `z = divide(a, b)` adds `z.grad / value(b)`
into `a.grad` and then `z.grad * (-value(a) / value(b)^2)` into
`b.grad`; and on `g(x) = x*x - 1/(x*x*x)` at `x = 2`, with the shared
`x` accumulating over every path, `compute_gradients` leaves
`x.grad = 4.1875 = 67/16`. -/
theorem claim_c3_divide_gradient :
    (∀ (γ : GradMap) (i : Nat) (v : Option ℚ)
      (sh : Option (Option (List Nat))) (f : List String) (a b : Node)
      (va vb : ℚ), valOf a = .ok va → valOf b = .ok vb →
      backStep γ (.mk i "div" v sh f [a, b]) =
        .ok (gset (gset γ a.nid (γ a.nid + γ i / vb)) b.nid
          ((gset γ a.nid (γ a.nid + γ i / vb)) b.nid +
            (gset γ a.nid (γ a.nid + γ i / vb)) i * (-va / (vb * vb))))) ∧
    (compute_gradients gGrad 1 (fun _ => 0)).1 xNode.nid = 67 / 16 ∧
    (compute_gradients gGrad 1 (fun _ => 0)).2 = none := by
  refine ⟨fun γ i v sh f a b va vb hva hvb =>
    backStep_div_rule γ i v sh f a b va vb hva hvb, ?_, ?_⟩
  · simp [compute_gradients, gGrad, topological_sort, topoVisit, topoList,
      xSq, negNode, oocNode, xCube, xSqInner, xNode, addN, mulN, divN, constant,
      backList, backStep, valOf, evaluateA, gset,
      Node.op, Node.value, Node.inputs, Node.nid]
    norm_num
  · simp [compute_gradients, gGrad, topological_sort, topoVisit, topoList,
      xSq, negNode, oocNode, xCube, xSqInner, xNode, addN, mulN, divN, constant,
      backList, backStep, valOf, evaluateA, gset,
      Node.op, Node.value, Node.inputs, Node.nid]

/-- C3 (witness): the divide rule applied to `div(constant(2), constant(4))`
with all gradients zero. -/
theorem claim_c3_divide_gradient_witness :
    backStep (fun _ => 0) (.mk 5 "div" none none [] [constant 0 2, constant 1 4]) =
      .ok (gset (gset (fun _ => 0) (constant 0 2).nid
          ((fun _ : Nat => (0 : ℚ)) (constant 0 2).nid + (fun _ : Nat => (0 : ℚ)) 5 / 4))
        (constant 1 4).nid
        ((gset (fun _ => 0) (constant 0 2).nid
            ((fun _ : Nat => (0 : ℚ)) (constant 0 2).nid + (fun _ : Nat => (0 : ℚ)) 5 / 4))
          (constant 1 4).nid +
          (gset (fun _ => 0) (constant 0 2).nid
            ((fun _ : Nat => (0 : ℚ)) (constant 0 2).nid + (fun _ : Nat => (0 : ℚ)) 5 / 4))
          5 * (-2 / (4 * 4)))) :=
  claim_c3_divide_gradient.1 (fun _ => 0) 5 none none [] (constant 0 2)
    (constant 1 4) 2 4 (by simp [valOf, constant, Node.value])
    (by simp [valOf, constant, Node.value])

/-- C4 (counterexample): CSE keys on input node identities, not input
values, and never records constants; the two structurally identical
subexpressions `add(constant(2), constant(3))` of `gTwin` (distinct
nodes, equal values) are left distinct, the four constants unmerged —
the pass returns the graph unchanged. -/
theorem claim_c4_counterexample :
    Cse.optimize gTwin = gTwin ∧
    gTwin.inputs.map Node.op = ["add", "add"] ∧
    (gTwin.inputs.map (fun n => n.inputs.map Node.value)) =
      [[some 2, some 3], [some 2, some 3]] ∧
    (Cse.optimize gTwin).inputs.map Node.nid = [4, 5] := by
  refine ⟨?_, rfl, by simp [gTwin, addN, constant, Node.inputs, Node.value], ?_⟩
  · simp [Cse.optimize, gTwin, addN, constant, cseVisit, cseList, lookupKey,
      Node.op, Node.value, Node.inputs, Node.nid]
  · simp [Cse.optimize, gTwin, addN, constant, cseVisit, cseList, lookupKey,
      Node.op, Node.value, Node.inputs, Node.nid]

/-- C4 (amended): universal characterization of CSE merging, for every
node and every key-faithful traversal state (the empty map the pass
starts from is key-faithful, and every pass step preserves it).
(1) The pass is `cseVisit` at the empty map. (2) Every input-less node
(in particular every constant) is returned untouched with the map
unchanged, so constants are never merged or recorded. (3) Every
processed compound node resolves to a node carrying the original's
operator, its cached value and the identities of its recursively
processed inputs, and the subexpression map records the resolved node
under exactly that (operator, input-identities, value) key.
(4) Recorded keys are stable: the node first observed for a key is what
the key resolves to ever after. (5) Two compound nodes processed in
sequence resolve to the same node identity exactly when they agree on
operator, on the identities of their recursively processed inputs, and
on cached value. -/
theorem claim_c4_cse_key_merging :
    (∀ g : Node, Cse.optimize g = (cseVisit g []).1) ∧
    (∀ (i : Nat) (o : String) (v : Option ℚ) (sh : Option (Option (List Nat)))
      (f : List String) (m : List (CseKey × Node)),
      cseVisit (.mk i o v sh f []) m = (.mk i o v sh f [], m)) ∧
    (∀ (n : Node) (m : List (CseKey × Node)), KeyFaithful m → n.inputs ≠ [] →
      (cseVisit n m).1.op = n.op ∧ (cseVisit n m).1.value = n.value ∧
      (cseVisit n m).1.inputs.map Node.nid =
        (cseList n.inputs m).1.map Node.nid ∧
      lookupKey (cseKeyOf n m) (cseVisit n m).2 = some (cseVisit n m).1) ∧
    (∀ (n : Node) (m : List (CseKey × Node)) (k : CseKey) (r : Node),
      lookupKey k m = some r → lookupKey k (cseVisit n m).2 = some r) ∧
    (∀ (t1 t2 : Node) (m : List (CseKey × Node)), KeyFaithful m →
      t1.inputs ≠ [] → t2.inputs ≠ [] →
      ((cseVisit t2 (cseVisit t1 m).2).1 = (cseVisit t1 m).1 ↔
        cseKeyOf t2 (cseVisit t1 m).2 = cseKeyOf t1 m)) := by
  refine ⟨fun g => rfl, ?_, ?_, ?_, ?_⟩
  · intro i o v sh f m
    simp [cseVisit]
  · intro n m hm hne
    exact cseVisit_resolves n m hm hne
  · intro n m k r h
    exact cseVisit_mono n m k r h
  · intro t1 t2 m hm h1 h2
    exact cseVisit_merge_iff t1 t2 m hm h1 h2

/-- C4 (witness): a constant is returned untouched, and the two distinct
`add` nodes over the same shared constant nodes, processed in sequence
from the empty map, resolve to one and the same node — via the
characterization's merge law, the key equality checked concretely. -/
theorem claim_c4_cse_key_merging_witness :
    cseVisit (constant 0 2) [] = (constant 0 2, []) ∧
    (cseVisit (.mk 3 "add" none none [] [constant 0 2, constant 1 3])
        (cseVisit (.mk 2 "add" none none [] [constant 0 2, constant 1 3]) []).2).1 =
      (cseVisit (.mk 2 "add" none none [] [constant 0 2, constant 1 3]) []).1 := by
  constructor
  · exact claim_c4_cse_key_merging.2.1 0 "const" (some 2) none [] []
  · exact (claim_c4_cse_key_merging.2.2.2.2
      (.mk 2 "add" none none [] [constant 0 2, constant 1 3])
      (.mk 3 "add" none none [] [constant 0 2, constant 1 3]) []
      (fun k r h => by simp [lookupKey] at h)
      (by simp [Node.inputs]) (by simp [Node.inputs])).mpr
      (by simp [cseKeyOf, cseVisit, cseList, lookupKey, constant,
        Node.op, Node.value, Node.inputs, Node.nid])

/-- C5: `compute_gradients` resets every reachable gradient to zero
before accumulating, so a second call over the same graph reproduces
exactly the gradient state of the first call — no gradient leaks
across calls. -/
theorem claim_c5_no_gradient_leak :
    (∀ (root : Node) (γ : GradMap) (j : Nat),
      ((topological_sort root).foldl (fun g n => gset g n.nid 0) γ) j =
        if j ∈ (topological_sort root).map Node.nid then 0 else γ j) ∧
    (∀ (root : Node) (seed : ℚ) (γ : GradMap),
      (compute_gradients root seed (compute_gradients root seed γ).1).1 =
        (compute_gradients root seed γ).1) :=
  ⟨fun root γ j => reset_fold_spec (topological_sort root) γ j,
   fun root seed γ => compute_gradients_idem root seed γ⟩

/-- C6: on an id-coherent graph, `topological_sort` lists exactly the
nodes reachable from the root, each exactly once (the listed ids are
duplicate-free), and each node after all of its inputs. -/
theorem claim_c6_topological_sort (g : Node) (hg : Coherent g) :
    (∀ s, s ∈ subnodes g ↔ s ∈ topological_sort g) ∧
    ((topological_sort g).map Node.nid).Nodup ∧
    TopoSorted (topological_sort g) :=
  topological_sort_correct hg

/-- C6 (witness): the sort of the concrete coherent graph `gPure`. -/
theorem claim_c6_topological_sort_witness :
    gPure ∈ topological_sort gPure ∧
    ((topological_sort gPure).map Node.nid).Nodup ∧
    TopoSorted (topological_sort gPure) := by
  have h := claim_c6_topological_sort gPure (coherent_of_nodup (by decide))
  exact ⟨(h.1 gPure).1 (self_mem_subnodes gPure), h.2.1, h.2.2⟩

/-- C7 (counterexample): a node with a recognized tag can still raise
`UnknownOperatorError`: evaluating `add(relu-node, constant(1))` fails
with `Unknown operation: relu` coming from the operand. -/
theorem claim_c7_counterexample :
    WFg gAddRelu ∧ gAddRelu.value = none ∧ gAddRelu.op = "add" ∧
    evaluate gAddRelu = .error (.unknownOp "relu") := by
  refine ⟨by decide, rfl, rfl, ?_⟩
  simp [gAddRelu, constant, evaluate, evaluateList, applyOp]

/-- C7 (amended): on well-formed graphs, an uncached node with an
unrecognized tag always fails with `UnknownOperatorError`; a node with
a cached value never fails; and a node whose reachable graph carries
only recognized-or-cached tags never fails — but a recognized tag at
the root alone does not guarantee success (see the counterexample). -/
theorem claim_c7_unknown_operator :
    (∀ n, WFg n → n.value = none →
      ¬(n.op = "add" ∨ n.op = "mul" ∨ n.op = "div") →
      ∃ s, evaluate n = .error (.unknownOp s)) ∧
    (∀ n v, n.value = some v → evaluate n = .ok v) ∧
    (∀ n, WFg n → AllKnown n → ∃ v, evaluate n = .ok v) :=
  ⟨fun n hwf hv ho => evaluate_unknown_fails hwf hv ho,
   fun n v hv => evaluate_of_value hv,
   fun n hwf hak => evaluate_allknown_ok n hwf hak⟩

/-- C7 (witness): the three parts instantiated on concrete nodes. -/
theorem claim_c7_unknown_operator_witness :
    (∃ s, evaluate (.mk 0 "relu" none none [] []) = .error (.unknownOp s)) ∧
    evaluate (constant 0 2) = .ok 2 ∧
    (∃ v, evaluate gPure = .ok v) := by
  refine ⟨claim_c7_unknown_operator.1 (.mk 0 "relu" none none [] [])
      (by decide) rfl (by decide),
    claim_c7_unknown_operator.2.1 (constant 0 2) 2 rfl,
    claim_c7_unknown_operator.2.2 gPure (by decide) (by decide)⟩

/-- C8 (counterexample): for `x = constant(0)`, the pattern pass does
not rewrite `multiply(x, constant(1))` to `x` itself: the `x*0` pattern
matches first and returns a fresh `constant(0)` with a new identity. -/
theorem claim_c8_counterexample :
    apply_patterns gMulZeroOne 100 = .ok (constant 100 0, 101) ∧
    constant 100 0 ≠ constant 0 0 ∧
    gMulZeroOne.inputs.map Node.value = [some 0, some 1] := by
  refine ⟨?_, ?_, by simp [gMulZeroOne, constant, Node.inputs, Node.value]⟩
  · simp [apply_patterns, gMulZeroOne, patVisit, patList, firstPattern,
      patterns, patMatchZero, patMatchOne, patReplaceZero, constant,
      Node.op, Node.value, Node.inputs, Node.nid, List.find?]
  · intro h
    have h2 : (100 : Nat) = 0 := congrArg Node.nid h
    omega

/-- C8 (amended): for every node `x` the pass leaves fixed whose value
is neither the literal 0 nor the literal 1, `multiply(x, constant(0))`
rewrites to a fresh `constant(0)` and `multiply(x, constant(1))`
rewrites to the very same node `x` (identity-level substitution),
picking the operand that is not the literal one. -/
theorem claim_c8_pattern_rewrites :
    (∀ (x : Node) (c i j : Nat), patVisit x c = .ok (x, c) →
      apply_patterns (.mk i "mul" none none [] [x, constant j 0]) c =
        .ok (constant c 0, c + 1)) ∧
    (∀ (x : Node) (c i j : Nat), patVisit x c = .ok (x, c) →
      x.value ≠ some 0 → x.value ≠ some 1 →
      apply_patterns (.mk i "mul" none none [] [x, constant j 1]) c =
        .ok (x, c)) :=
  ⟨fun x c i j hx => patterns_mul_zero x c i j hx,
   fun x c i j hx hx0 hx1 => patterns_mul_one x c i j hx hx0 hx1⟩

/-- C8 (witness): both rewrites on the pattern-free non-constant
`x = div(constant(5), constant(7))`. -/
theorem claim_c8_pattern_rewrites_witness :
    apply_patterns (.mk 20 "mul" none none [] [xwNode, constant 21 0]) 100 =
      .ok (constant 100 0, 101) ∧
    apply_patterns (.mk 20 "mul" none none [] [xwNode, constant 21 1]) 100 =
      .ok (xwNode, 100) := by
  have hx : patVisit xwNode 100 = .ok (xwNode, 100) := by
    simp [patVisit, patList, xwNode, divN, constant, firstPattern, patterns,
      patMatchZero, patMatchOne, Node.op, Node.value, Node.inputs]
  exact ⟨claim_c8_pattern_rewrites.1 xwNode 100 20 21 hx,
    claim_c8_pattern_rewrites.2 xwNode 100 20 21 hx (by decide) (by decide)⟩

/-- C9: dead-code elimination only marks reachable nodes; it returns the
graph unchanged in structure, so evaluation is unchanged. -/
theorem claim_c9_dead_code (g : Node) :
    DeadCode.optimize g = g ∧ evaluate (DeadCode.optimize g) = evaluate g :=
  ⟨rfl, rfl⟩

/-- C10: the pattern pass is not total: on
`multiply(constant(1), constant(1))`, whose every input carries the
literal 1, the `x*1` replacement's search for a non-1 input finds
nothing and raises StopIteration. -/
theorem claim_c10_stop_iteration :
    gMulOneOne.op = "mul" ∧
    gMulOneOne.inputs.map Node.value = [some 1, some 1] ∧
    apply_patterns gMulOneOne 100 = .error .stopIteration := by
  refine ⟨rfl, by simp [gMulOneOne, constant, Node.inputs, Node.value], ?_⟩
  simp [apply_patterns, gMulOneOne, patVisit, patList, firstPattern, patterns,
    patMatchZero, patMatchOne, patReplaceZero, patReplaceOne, constant,
    Node.op, Node.value, Node.inputs, Node.nid, List.find?]
